import Mathlib

/-!
# Verification of the silver-price notifier pipeline (`silver_bot.py`)

Shallow embedding of the change-detection pipeline of `silver_bot.py`.

Modelling conventions:
* Python strings are modelled as `List Char` (abbreviated `Str`); Python
  compares strings lexicographically by code point, which coincides with the
  order on `Char` (by `Char.val`).
* Python whitespace (`str.strip`, `re` class `\s`) is modelled by the
  predicate `isPySpace`, listing the Unicode whitespace characters that
  Python's `str.isspace` accepts.
* Python decimal digits (`re` class `\d`) are modelled as the ASCII digits
  (the scraped page only ever contains ASCII digits).
* `list.sort(key=...)` is Python's stable sort by key; it is modelled
  extensionally by `List.insertionSort` with the non-strict key order
  (insertion sort inserts each element in front of key-ties, and the element
  being inserted precedes the already-sorted tail in the original list, so
  ties keep their input order exactly as in Python's stable sort).
* Fallible code is modelled with `Option` / `Except`; I/O boundaries
  (HTTP fetch, Gist API, Telegram API, the filesystem) are modelled by
  explicit oracle values fed to the pure transition function `main`.
* `hashlib.sha256` is modelled as an arbitrary fingerprint function
  parameter `h : Str → Str`; every claim about `main` is stated for all `h`,
  and only fingerprint (in)equality is ever used, exactly as in the source.
-/

/-- Python strings, modelled as lists of Unicode scalar values. -/
abbrev Str := List Char

/-- The characters for which Python's `str.isspace` (and the `re` class
`\s` on `str` patterns) returns true. -/
def isPySpace (c : Char) : Bool :=
  c = ' ' || c = '\t' || c = '\n' || c = '\r' || c = '\x0b' || c = '\x0c' ||
  c = '\x1c' || c = '\x1d' || c = '\x1e' || c = '\x1f' || c = '\x85' ||
  c = '\u00a0' || c = '\u1680' ||
  (0x2000 ≤ c.toNat && c.toNat ≤ 0x200a) ||
  c = '\u2028' || c = '\u2029' || c = '\u202f' || c = '\u205f' || c = '\u3000'

/-- ASCII decimal digits, modelling the `re` class `\d` on this page's data. -/
def pyIsDigit (c : Char) : Bool := '0' ≤ c && c ≤ '9'

/-- Drop leading Python whitespace (the left half of `str.strip`). -/
def dropWS (l : Str) : Str := l.dropWhile (fun c => isPySpace c)

/-- Drop trailing Python whitespace (the right half of `str.strip`). -/
def stripTrailing : Str → Str
  | [] => []
  | c :: rest =>
    let r := stripTrailing rest
    if r = [] ∧ isPySpace c then [] else c :: r

/-- Python's `str.strip()`. -/
def pyStrip (l : Str) : Str := stripTrailing (dropWS l)

/-- Python's `str.replace("\xa0", " ")` (single-character pattern, so a map). -/
def replaceNBSP (l : Str) : Str := l.map (fun c => if c = '\u00a0' then ' ' else c)

/-- Python's `str.replace("\r\n", "\n")`: left-to-right, non-overlapping. -/
def replaceCRLF : Str → Str
  | [] => []
  | [c] => [c]
  | x :: y :: rest =>
    if x = '\r' ∧ y = '\n' then '\n' :: replaceCRLF rest
    else x :: replaceCRLF (y :: rest)

/-- Python's `re.sub(r"\s+", " ", s)`: each maximal whitespace run becomes one
space.  The flag records whether the previous character was part of a
whitespace run that has already emitted its single space. -/
def collapseWS : Bool → Str → Str
  | _, [] => []
  | prev, c :: rest =>
    if isPySpace c then
      if prev then collapseWS true rest else ' ' :: collapseWS true rest
    else c :: collapseWS false rest

/-- `normalize_name` from `silver_bot.py`:
`s.replace("\xa0", " ").strip()` followed by `re.sub(r"\s+", " ", s)`. -/
def normalize_name (s : Str) : Str := collapseWS false (pyStrip (replaceNBSP s))

/-- Reversed decimal digits of a positive number, with explicit fuel (the
number itself suffices), mirroring Python's `str(int)` digit production. -/
def natToRevDigits : Nat → Nat → Str
  | 0, _ => []
  | _ + 1, 0 => []
  | fuel + 1, n + 1 => Nat.digitChar ((n + 1) % 10) :: natToRevDigits fuel ((n + 1) / 10)

/-- Python's `str(n)` for a non-negative integer. -/
def natToStr (n : Nat) : Str := if n = 0 then ['0'] else (natToRevDigits n n).reverse

/-- Python's `int(digits)` on a non-empty string of decimal digits. -/
def digitsToNat (l : Str) : Nat := l.foldl (fun acc c => acc * 10 + (c.toNat - '0'.toNat)) 0

/-- `parse_vnd_commas` from `silver_bot.py`: strip, treat `""`, `"-"`, `"—"`
as absent, otherwise delete every non-digit and parse what remains
(`None` if no digit survives). -/
def parse_vnd_commas (value : Str) : Option Nat :=
  let v := pyStrip value
  if v = [] ∨ v = ['-'] ∨ v = ['—'] then none
  else
    let digits := v.filter (fun c => pyIsDigit c)
    if digits = [] then none else some (digitsToNat digits)



/-- `format_vnd` groups the digits of a positive amount in threes.  Python:
`f"{value:,.0f}".replace(",", ".")`; `None` prints as `"-"`. -/
def groupRevDigits : Str → Str
  | d1 :: d2 :: d3 :: d4 :: rest => d1 :: d2 :: d3 :: '.' :: groupRevDigits (d4 :: rest)
  | l => l

/-- `format_vnd` from `silver_bot.py`. -/
def format_vnd : Option Nat → Str
  | none => ['-']
  | some n => (groupRevDigits (natToStr n).reverse).reverse

/-- The `SilverItem` dataclass from `silver_bot.py`. -/
structure SilverItem where
  name : Str
  unit : Str
  buy : Option Nat
  sell : Option Nat
deriving DecidableEq, Repr

/-- A canonical-snapshot row: `(name, unit, buy, sell)` after normalization. -/
abbrev Row := Str × Str × Str × Str

/-- The sort key used by `canonical_snapshot`: the `(name, unit)` pair. -/
def rowKey (r : Row) : Str × Str := (r.1, r.2.1)

/-- Python string `<`: lexicographic comparison by code point, a proper
prefix being smaller. -/
def strLtB : Str → Str → Bool
  | _, [] => false
  | [], _ :: _ => true
  | a :: as, b :: bs => decide (a < b) || (decide (a = b) && strLtB as bs)

/-- Python tuple `<` on `(name, unit)` pairs of strings. -/
def pairLtB (p q : Str × Str) : Bool :=
  strLtB p.1 q.1 || (decide (p.1 = q.1) && strLtB p.2 q.2)

/-- The non-strict "key of `a` does not come after key of `b`" order realised
by `rows.sort(key=lambda x: (x[0], x[1]))`. -/
def rowLE (a b : Row) : Prop := pairLtB (rowKey b) (rowKey a) = false

instance : DecidableRel rowLE := fun a b => by unfold rowLE; infer_instance

/-- One rendered snapshot line: `f"{n} | {u} | {b} | {s}"`. -/
def rowLine (r : Row) : Str :=
  r.1 ++ (" | ".data ++ (r.2.1 ++ (" | ".data ++ (r.2.2.1 ++ (" | ".data ++ r.2.2.2)))))

/-- The normalized row built by `canonical_snapshot` for one item. -/
def rowOfItem (it : SilverItem) : Row :=
  (normalize_name it.name, normalize_name it.unit,
   (match it.buy with | none => [] | some n => natToStr n),
   (match it.sell with | none => [] | some n => natToStr n))

/-- `canonical_snapshot` from `silver_bot.py`: normalize each row, stable-sort
by the `(name, unit)` key, render `name | unit | buy | sell` lines joined by
newlines, and strip the result. -/
def canonical_snapshot (items : List SilverItem) : Str :=
  pyStrip (List.intercalate ['\n']
    ((List.insertionSort rowLE (items.map rowOfItem)).map rowLine))

/-- `canonicalize_text_blob` from `silver_bot.py`:
`(s or "").replace("\xa0", " ").replace("\r\n", "\n").strip()`. -/
def canonicalize_text_blob (s : Str) : Str := pyStrip (replaceCRLF (replaceNBSP s))

/-- One `<td>` cell: its (optional) `colspan` attribute and the text that
`get_text(" ", strip=True)` extracts from it.  HTML attributes are strings,
so the source's `in ("4", 4)` test can only match the string `"4"`. -/
structure Cell where
  colspan : Option Str
  text : Str
deriving DecidableEq, Repr

/-- The `<table>` inside the price container: its `tbody tr` rows, each a
list of `<td>` cells. -/
structure PriceTable where
  rows : List (List Cell)
deriving DecidableEq, Repr

/-- The `#priceListContainer` element: it may or may not hold a table. -/
structure PriceContainer where
  table : Option PriceTable
deriving DecidableEq, Repr

/-- A fetched page: the unique `#priceListContainer` may be absent. -/
structure Page where
  container : Option PriceContainer
deriving DecidableEq, Repr

/-- Errors raised by the extraction pipeline (`RuntimeError`s in the source,
plus the fetch layer's `requests` exceptions). -/
inductive ExtractError where
  | fetchFailed
  | noContainer
  | noTable
  | emptyResult
deriving DecidableEq, Repr

/-- The row loop of `parse_silver_table` (lines 135-160): skip empty rows,
skip one-cell `colspan="4"` group headers, skip rows with fewer than four
cells, and drop rows whose name is empty or whose prices are both absent. -/
def processRows : List (List Cell) → List SilverItem
  | [] => []
  | tds :: rest =>
    match tds with
    | [] => processRows rest
    | td0 :: tds1 =>
      if tds1 = [] ∧ td0.colspan = some ['4'] then processRows rest
      else if (td0 :: tds1).length < 4 then processRows rest
      else
        match td0 :: tds1 with
        | t0 :: t1 :: t2 :: t3 :: _ =>
          let name := normalize_name t0.text
          let unit := normalize_name t1.text
          let buy := parse_vnd_commas t2.text
          let sell := parse_vnd_commas t3.text
          if name = [] ∨ (buy = none ∧ sell = none) then processRows rest
          else ⟨name, unit, buy, sell⟩ :: processRows rest
        | _ => processRows rest

/-- `parse_silver_table` from `silver_bot.py`, over the abstract page
structure: fail when the container or its table is missing, otherwise run
the row loop. -/
def parse_silver_table (p : Page) : Except ExtractError (List SilverItem) :=
  match p.container with
  | none => .error .noContainer
  | some c =>
    match c.table with
    | none => .error .noTable
    | some t => .ok (processRows t.rows)

/-- `get_silver_price` from `silver_bot.py`: fetch (modelled as an optional
already-fetched page, `none` when the HTTP GET raises), parse, and fail with
`emptyResult` when no rows survived. -/
def get_silver_price (fetched : Option Page) : Except ExtractError (List SilverItem) :=
  match fetched with
  | none => .error .fetchFailed
  | some p =>
    match parse_silver_table p with
    | .error e => .error e
    | .ok items => if items = [] then .error .emptyResult else .ok items

/-- What the Gist read endpoint can answer: 404, any other failure (non-2xx
status, transport error, bad JSON — everything the `except` catches), or a
JSON body in which the snapshot file entry and its `content` field may each
be missing. -/
inductive GistReadResponse where
  | notFound
  | failure
  | ok (entry : Option (Option Str))
deriving DecidableEq, Repr

/-- `load_last_data_from_gist` from `silver_bot.py`: every non-success
answer (404, raised error, missing file entry, missing content) degrades to
the empty string; only a present `content` field is returned as stored. -/
def load_last_data_from_gist : GistReadResponse → Str
  | .notFound => []
  | .failure => []
  | .ok none => []
  | .ok (some content) => content.getD []

/-- `load_last_data_from_file` from `silver_bot.py`: a missing local file
(`FileNotFoundError`) reads as the empty string. -/
def load_last_data_from_file : Option Str → Str
  | none => []
  | some t => t

/-- The environment variables read by `silver_bot.py` (`os.getenv` yields
`none` when a variable is unset). -/
structure Env where
  silverTelegramBotToken : Option Str
  telegramBotToken : Option Str
  silverTelegramChatId : Option Str
  telegramChatId : Option Str
  gistTokenVar : Option Str
  tokenGistVar : Option Str
  gistId : Option Str
deriving DecidableEq, Repr

/-- Python's `a or b or ""` over `os.getenv` results: the first value that is
neither `None` nor the empty string, else `""`. -/
def firstTruthy : List (Option Str) → Str
  | [] => []
  | none :: rest => firstTruthy rest
  | some s :: rest => if s = [] then firstTruthy rest else s

/-- `main`'s bot credential: `(getenv("SILVER_TELEGRAM_BOT_TOKEN") or
getenv("TELEGRAM_BOT_TOKEN") or "").strip()`. -/
def bot_token (e : Env) : Str :=
  pyStrip (firstTruthy [e.silverTelegramBotToken, e.telegramBotToken])

/-- `main`'s chat identifier, with the same two-variable fallback. -/
def chat_id (e : Env) : Str :=
  pyStrip (firstTruthy [e.silverTelegramChatId, e.telegramChatId])

/-- `_get_gist_token` from `silver_bot.py`: `(getenv("GIST_TOKEN") or
getenv("TOKEN_GIST") or "").strip() or None`. -/
def get_gist_token (e : Env) : Option Str :=
  let t := pyStrip (firstTruthy [e.gistTokenVar, e.tokenGistVar])
  if t = [] then none else some t

/-- The stripped `GIST_ID` environment value. -/
def gist_id_env (e : Env) : Str := pyStrip (firstTruthy [e.gistId])

/-- The backend-selection condition `if gist_token and gist_id` shared by
`load_last_snapshot` and `save_last_snapshot`. -/
def gistConfigured (e : Env) : Bool :=
  (get_gist_token e).isSome && !(gist_id_env e = [] : Bool)

/-- The externally observable operations a run can perform. -/
inductive Effect where
  | fetch
  | gistRead
  | fileRead
  | send
  | gistWrite
  | fileWrite
deriving DecidableEq, Repr

/-- The persisted snapshot store: the Gist blob (if the Gist has the snapshot
file) and the local fallback file (if it exists). -/
structure Store where
  gistText : Option Str
  fileText : Option Str
deriving DecidableEq, Repr

/-- The oracle values for one run: the fetched page (`none` when the HTTP
GET fails), whether the Gist read raises, whether every Telegram send
attempt fails, and whether the Gist write raises. -/
structure World where
  fetched : Option Page
  gistReadFails : Bool
  sendOk : Bool
  gistWriteFails : Bool
deriving DecidableEq, Repr

/-- The Gist API answer induced by the store state and the read oracle. -/
def gistResponseOf (readFails : Bool) (st : Store) : GistReadResponse :=
  if readFails then .failure
  else match st.gistText with
    | none => .notFound
    | some t => .ok (some (some t))

/-- `load_last_snapshot` from `silver_bot.py`: read from the Gist when both
credential and id are configured, else from the local file.  The second
component records which backend was accessed. -/
def load_last_snapshot (e : Env) (readFails : Bool) (st : Store) : Str × Effect :=
  if gistConfigured e then
    (load_last_data_from_gist (gistResponseOf readFails st), .gistRead)
  else
    (load_last_data_from_file st.fileText, .fileRead)

/-- `save_last_snapshot` from `silver_bot.py`: when configured, attempt the
Gist write and return on success; when that write raises, fall back to the
local file; when not configured, write the local file.  Returns the new
store state and the writes performed, in order. -/
def save_last_snapshot (e : Env) (writeFails : Bool) (st : Store) (text : Str) :
    Store × List Effect :=
  if gistConfigured e then
    if writeFails then
      ({ st with fileText := some text }, [.gistWrite, .fileWrite])
    else
      ({ st with gistText := some text }, [.gistWrite])
  else
    ({ st with fileText := some text }, [.fileWrite])

/-- `main` from `silver_bot.py` as a pure transition function (named
`main_run` because Lean reserves `main` for program entry points): given a
fingerprint function `h` (modelling `sha256_text`), the environment, the
run's oracles and the store state, it returns the store state after the run
and the effects performed, in order.  Mirrors lines 341-373: config check,
extraction, snapshot + fingerprint, load previous + normalize + fingerprint,
and the send-then-commit branch whose send failure is caught and skips the
commit. -/
def main_run (h : Str → Str) (e : Env) (w : World) (st : Store) : Store × List Effect :=
  if bot_token e = [] ∨ chat_id e = [] then (st, [])
  else
    match get_silver_price w.fetched with
    | .error _ => (st, [.fetch])
    | .ok items =>
      let snapshot_text := canonical_snapshot items
      let loaded := load_last_snapshot e w.gistReadFails st
      if h snapshot_text = h (canonicalize_text_blob loaded.1) then
        (st, [.fetch, loaded.2])
      else
        if w.sendOk then
          let saved := save_last_snapshot e w.gistWriteFails st snapshot_text
          (saved.1, [.fetch, loaded.2, .send] ++ saved.2)
        else
          (st, [.fetch, loaded.2, .send])

/-- Python's `str.ljust`: pad on the right with spaces up to the width. -/
def ljust (s : Str) (n : Nat) : Str := s ++ List.replicate (n - s.length) ' '

/-- Python's `str.rjust`: pad on the left with spaces up to the width. -/
def rjust (s : Str) (n : Nat) : Str := List.replicate (n - s.length) ' ' ++ s

/-- Python's `str.replace` for a single-character pattern with an arbitrary
replacement string. -/
def replaceChar (c : Char) (rep : Str) : Str → Str
  | [] => []
  | x :: rest => (if x = c then rep else [x]) ++ replaceChar c rep rest

/-- Python's `html.escape(s)` (with its default `quote=True`): replace `&`,
then `<`, `>`, `"`, `'`, in that order. -/
def htmlEscape (s : Str) : Str :=
  replaceChar '\u0027' "&#x27;".data
    (replaceChar '"' "&quot;".data
      (replaceChar '>' "&gt;".data
        (replaceChar '<' "&lt;".data
          (replaceChar '&' "&amp;".data s))))

/-- The fixed header row of the message table. -/
def msgHeaderRow : Row := ("SẢN PHẨM".data, "ĐƠN VỊ".data, "MUA VÀO".data, "BÁN RA".data)

/-- One message-table row for an item, as built by `build_message`. -/
def msgRow (it : SilverItem) : Row :=
  (normalize_name it.name, normalize_name it.unit, format_vnd it.buy, format_vnd it.sell)

/-- All message-table rows: the header row then one row per item. -/
def msgRows (items : List SilverItem) : List Row := msgHeaderRow :: items.map msgRow

/-- `max(len(...) for r in rows)` for one projected column (the list is
never empty thanks to the header row, so the `0` seed is inert). -/
def colWidth (f : Row → Str) (rows : List Row) : Nat :=
  (rows.map (fun r => (f r).length)).foldl max 0

/-- The aligned text lines of the message table (lines 313-325). -/
def tableLines (items : List SilverItem) : List Str :=
  let rows := msgRows items
  let c1 := colWidth (fun r => r.1) rows
  let c2 := colWidth (fun r => r.2.1) rows
  let c3 := colWidth (fun r => r.2.2.1) rows
  let c4 := colWidth (fun r => r.2.2.2) rows
  rows.map (fun r =>
    ljust r.1 c1 ++ ("  ".data ++ (ljust r.2.1 c2 ++ ("  ".data ++
      (rjust r.2.2.1 c3 ++ ("  ".data ++ rjust r.2.2.2 c4))))))

/-- The raw (pre-escaping) table text: `"\n".join(lines)`. -/
def tableText (items : List SilverItem) : Str := List.intercalate ['\n'] (tableLines items)

/-- The message header, parameterized by the formatted current time. -/
def msgHeader (now : Str) : Str :=
  "🥈 <b>Cập nhật giá bạc Phú Quý</b>\n⏱ ".data ++ now ++ "\n\n".data

/-- `build_message` from `silver_bot.py`, parameterized by the formatted
current time: header, then the HTML-escaped table inside `<pre><code>`
tags, then the source line. -/
def build_message (now : Str) (items : List SilverItem) : Str :=
  msgHeader now ++ ("<pre><code>".data ++ (htmlEscape (tableText items) ++
    ("</code></pre>".data ++ "\nNguồn: giabac.phuquygroup.vn".data)))

/-- Does the two-character string `ab` occur in `l`? -/
def hasPair (a b : Char) : Str → Bool
  | [] => false
  | [_] => false
  | x :: y :: rest => (decide (x = a) && decide (y = b)) || hasPair a b (y :: rest)

/-- Does the three-character string `abc` occur in `l`? -/
def hasTriple (a b c : Char) : Str → Bool
  | x :: y :: z :: rest =>
    (decide (x = a) && decide (y = b) && decide (z = c)) || hasTriple a b c (y :: z :: rest)
  | _ => false

/-- The maximal non-whitespace runs ("words") of a string, accumulator
form: `cur` holds the current word reversed. -/
def wordsAux (cur : Str) : Str → List Str
  | [] => if cur = [] then [] else [cur.reverse]
  | c :: rest =>
    if isPySpace c then
      if cur = [] then wordsAux [] rest else cur.reverse :: wordsAux [] rest
    else wordsAux (c :: cur) rest

/-- The maximal non-whitespace runs of a string, in order.  Two strings have
the same `wordsOf` exactly when they differ only in whitespace noise:
non-breaking versus ordinary spaces, leading/trailing whitespace, and the
width of whitespace runs. -/
def wordsOf (l : Str) : List Str := wordsAux [] l

/-- Joining words with single spaces: the normal form that
`normalize_name` computes. -/
def joinWords (ws : List Str) : Str := List.intercalate [' '] ws

/-- The strict key order: used only to show that sorting is deterministic
when all keys are distinct. -/
def rowLT (a b : Row) : Prop := pairLtB (rowKey a) (rowKey b) = true

/-- The `(normalized name, normalized unit)` sort key of an item. -/
def itemKey (it : SilverItem) : Str × Str := (normalize_name it.name, normalize_name it.unit)

/-- Two items that differ only in incidental whitespace noise inside their
`name`/`unit` fields (non-breaking vs ordinary spaces, leading/trailing
whitespace, width of whitespace runs): same words, same prices. -/
def itemNoiseEq (a b : SilverItem) : Prop :=
  wordsOf a.name = wordsOf b.name ∧ wordsOf a.unit = wordsOf b.unit ∧
    a.buy = b.buy ∧ a.sell = b.sell

/-- The text `html.escape` produces for a single character. -/
def escChar (c : Char) : Str :=
  if c = '&' then "&amp;".data
  else if c = '<' then "&lt;".data
  else if c = '>' then "&gt;".data
  else if c = '"' then "&quot;".data
  else if c = '\u0027' then "&#x27;".data
  else [c]

/-- Text in which `<`, `>` and `&` occur only inside complete HTML escape
entities: the shape of `html.escape` output. -/
inductive EscapedText : Str → Prop where
  | nil : EscapedText []
  | safe {c : Char} (h1 : c ≠ '<') (h2 : c ≠ '>') (h3 : c ≠ '&') {rest : Str} :
      EscapedText rest → EscapedText (c :: rest)
  | amp {rest : Str} : EscapedText rest → EscapedText ("&amp;".data ++ rest)
  | lt {rest : Str} : EscapedText rest → EscapedText ("&lt;".data ++ rest)
  | gt {rest : Str} : EscapedText rest → EscapedText ("&gt;".data ++ rest)
  | quot {rest : Str} : EscapedText rest → EscapedText ("&quot;".data ++ rest)
  | apos {rest : Str} : EscapedText rest → EscapedText ("&#x27;".data ++ rest)

/-! ## Helper lemmas about the whitespace primitives -/

theorem stripTrailing_eq_nil_iff (l : Str) :
    stripTrailing l = [] ↔ ∀ c ∈ l, isPySpace c = true := by
  induction l with
  | nil => simp [stripTrailing]
  | cons c rest ih =>
    by_cases hr : stripTrailing rest = []
    · by_cases hc : isPySpace c = true
      · constructor
        · intro _ b hb
          rcases List.mem_cons.mp hb with rfl | hb
          · exact hc
          · exact ih.mp hr b hb
        · intro _; simp [stripTrailing, hr, hc]
      · simp [stripTrailing, hr, hc]
    · have : ¬ ∀ b ∈ rest, isPySpace b = true := fun hall => hr (ih.mpr hall)
      simp only [stripTrailing, List.mem_cons]
      rw [if_neg (fun hand => hr hand.1)]
      constructor
      · intro hfalse; exact absurd hfalse (List.cons_ne_nil _ _)
      · intro hall
        exact absurd (ih.mpr (fun b hb => hall b (Or.inr hb))) hr

theorem stripTrailing_head? (l : Str) :
    stripTrailing l = [] ∨ (stripTrailing l).head? = l.head? := by
  cases l with
  | nil => exact Or.inl rfl
  | cons c rest =>
    by_cases h : stripTrailing rest = [] ∧ isPySpace c = true
    · exact Or.inl (by simp [stripTrailing, h])
    · exact Or.inr (by simp [stripTrailing, h])

theorem stripTrailing_idem (l : Str) : stripTrailing (stripTrailing l) = stripTrailing l := by
  induction l with
  | nil => rfl
  | cons c rest ih =>
    by_cases h : stripTrailing rest = [] ∧ isPySpace c = true
    · simp [stripTrailing, h]
    · have hstep : stripTrailing (c :: rest) = c :: stripTrailing rest := by
        simp [stripTrailing, h]
      rw [hstep]
      have : stripTrailing (c :: stripTrailing rest) =
          if stripTrailing (stripTrailing rest) = [] ∧ isPySpace c = true then []
          else c :: stripTrailing (stripTrailing rest) := rfl
      rw [this, ih, if_neg h]

theorem stripTrailing_append (xs ys : Str) :
    stripTrailing (xs ++ ys) =
      if stripTrailing ys = [] then stripTrailing xs else xs ++ stripTrailing ys := by
  induction xs with
  | nil =>
    by_cases h : stripTrailing ys = [] <;> simp [h, stripTrailing]
  | cons c xs ih =>
    have hstep : stripTrailing (c :: (xs ++ ys)) =
        if stripTrailing (xs ++ ys) = [] ∧ isPySpace c = true then []
        else c :: stripTrailing (xs ++ ys) := rfl
    by_cases hys : stripTrailing ys = []
    · rw [if_pos hys]
      have hstep2 : stripTrailing (c :: xs) =
          if stripTrailing xs = [] ∧ isPySpace c = true then []
          else c :: stripTrailing xs := rfl
      rw [List.cons_append, hstep, ih, if_pos hys, hstep2]
    · rw [if_neg hys]
      have hne : stripTrailing (xs ++ ys) ≠ [] := by
        rw [ih, if_neg hys]
        intro habs
        exact hys (List.append_eq_nil.mp habs).2
      rw [List.cons_append, hstep, if_neg (fun hand => hne hand.1), ih, if_neg hys]
      rfl

theorem stripTrailing_of_all_nonws (l : Str) (h : ∀ c ∈ l, isPySpace c = false) :
    stripTrailing l = l := by
  induction l with
  | nil => rfl
  | cons c rest ih =>
    have hc : isPySpace c = false := h c (List.mem_cons_self _ _)
    have hrest := ih (fun b hb => h b (List.mem_cons_of_mem _ hb))
    simp [stripTrailing, hrest, hc]

theorem stripTrailing_initial_segment (l : Str) : stripTrailing l <+: l := by
  induction l with
  | nil => exact List.prefix_rfl
  | cons c rest ih =>
    by_cases h : stripTrailing rest = [] ∧ isPySpace c = true
    · simp [stripTrailing, h]
    · have hstep : stripTrailing (c :: rest) = c :: stripTrailing rest := by
        simp [stripTrailing, h]
      rw [hstep]
      exact (List.prefix_cons_inj c).mpr ih

theorem dropWS_cons_of_ws {c : Char} (l : Str) (hc : isPySpace c = true) :
    dropWS (c :: l) = dropWS l := by
  simp [dropWS, List.dropWhile_cons, hc]

theorem dropWS_cons_of_nonws {c : Char} (l : Str) (hc : isPySpace c = false) :
    dropWS (c :: l) = c :: l := by
  simp [dropWS, List.dropWhile_cons, hc]

theorem dropWS_head_nonws (l : Str) :
    dropWS l = [] ∨ ∃ c t, dropWS l = c :: t ∧ isPySpace c = false := by
  induction l with
  | nil => exact Or.inl rfl
  | cons c rest ih =>
    by_cases hc : isPySpace c = true
    · rw [dropWS_cons_of_ws rest hc]; exact ih
    · refine Or.inr ⟨c, rest, ?_, by simpa using hc⟩
      exact dropWS_cons_of_nonws rest (by simpa using hc)

theorem dropWS_of_head_nonws {c : Char} (l : Str) (hc : isPySpace c = false) :
    dropWS (c :: l) = c :: l := dropWS_cons_of_nonws l hc

theorem pyStrip_subset (l : Str) : pyStrip l ⊆ l := by
  intro c hc
  have h1 : pyStrip l ⊆ dropWS l := ((stripTrailing_initial_segment (dropWS l)).sublist).subset
  exact ((List.dropWhile_sublist _).subset) (h1 hc)

theorem pyStrip_idem (l : Str) : pyStrip (pyStrip l) = pyStrip l := by
  unfold pyStrip
  have hdrop : dropWS (stripTrailing (dropWS l)) = stripTrailing (dropWS l) := by
    rcases stripTrailing_head? (dropWS l) with h | h
    · rw [h]; rfl
    · rcases dropWS_head_nonws l with h0 | ⟨c, t, h0, hc⟩
      · rw [h0]; rfl
      · rw [h0] at h ⊢
        cases hst : stripTrailing (c :: t) with
        | nil => rfl
        | cons x xs =>
          rw [hst] at h
          simp only [List.head?_cons] at h
          have hxc : x = c := by injection h
          subst hxc
          exact dropWS_of_head_nonws xs hc
  rw [hdrop, stripTrailing_idem]

/-! ## Substring occurrence predicates and the CRLF/NBSP rewrites -/

theorem hasPair_cons_cons (a b x y : Char) (rest : Str) :
    hasPair a b (x :: y :: rest) =
      ((decide (x = a) && decide (y = b)) || hasPair a b (y :: rest)) := rfl

theorem hasPair_of_not_mem {a : Char} (b : Char) (l : Str) (h : a ∉ l) :
    hasPair a b l = false := by
  induction l with
  | nil => rfl
  | cons x rest ih =>
    cases rest with
    | nil => rfl
    | cons y rs =>
      have hx : x ≠ a := fun hxa => h (hxa ▸ List.mem_cons_self _ _)
      rw [hasPair_cons_cons]
      have h2 : hasPair a b (y :: rs) = false := ih (fun hm => h (List.mem_cons_of_mem _ hm))
      simp [hx, h2]

theorem hasPair_append_left {a b : Char} (xs ys : Str) (h : hasPair a b xs = true) :
    hasPair a b (xs ++ ys) = true := by
  induction xs with
  | nil => simp [hasPair] at h
  | cons x rest ih =>
    cases rest with
    | nil => simp [hasPair] at h
    | cons y rs =>
      rw [hasPair_cons_cons] at h
      rw [List.cons_append, List.cons_append, hasPair_cons_cons]
      rcases Bool.or_eq_true_iff.mp h with h1 | h2
      · rw [← List.cons_append]
        exact Bool.or_eq_true_iff.mpr (Or.inl h1)
      · rw [← List.cons_append]
        exact Bool.or_eq_true_iff.mpr (Or.inr (ih h2))

theorem hasPair_dropWhile {a b : Char} (p : Char → Bool) (l : Str)
    (h : hasPair a b (l.dropWhile p) = true) : hasPair a b l = true := by
  induction l with
  | nil => simpa [List.dropWhile] using h
  | cons x rest ih =>
    by_cases hx : p x = true
    · rw [List.dropWhile_cons, if_pos hx] at h
      have := ih h
      cases rest with
      | nil => simp [hasPair] at this
      | cons y rs =>
        rw [hasPair_cons_cons]
        exact Bool.or_eq_true_iff.mpr (Or.inr this)
    · rw [List.dropWhile_cons, if_neg hx] at h
      exact h

theorem hasPair_prefix {a b : Char} {xs l : Str} (hp : xs <+: l)
    (h : hasPair a b xs = true) : hasPair a b l = true := by
  rcases hp with ⟨t, rfl⟩
  exact hasPair_append_left xs t h

theorem hasPair_pyStrip {a b : Char} (l : Str) (h : hasPair a b l = false) :
    hasPair a b (pyStrip l) = false := by
  by_contra hcontra
  have htrue : hasPair a b (pyStrip l) = true := by
    cases hval : hasPair a b (pyStrip l) with
    | true => rfl
    | false => exact absurd hval hcontra
  have h1 : hasPair a b (dropWS l) = true :=
    hasPair_prefix (stripTrailing_initial_segment (dropWS l)) htrue
  have h2 : hasPair a b l = true := hasPair_dropWhile _ l h1
  rw [h] at h2
  exact Bool.false_ne_true h2

theorem replaceCRLF_id (l : Str) (h : hasPair '\r' '\n' l = false) : replaceCRLF l = l := by
  induction l using replaceCRLF.induct with
  | case1 => rfl
  | case2 c => rfl
  | case3 x y rest hxy ih =>
    rw [hasPair_cons_cons] at h
    rcases hxy with ⟨rfl, rfl⟩
    simp at h
  | case4 x y rest hxy ih =>
    rw [hasPair_cons_cons] at h
    have h2 : hasPair '\r' '\n' (y :: rest) = false := by
      rcases Bool.or_eq_false_iff.mp h with ⟨_, h2⟩
      exact h2
    have hstep : replaceCRLF (x :: y :: rest) = x :: replaceCRLF (y :: rest) := by
      simp only [replaceCRLF, if_neg hxy]
    rw [hstep, ih h2]

theorem mem_replaceCRLF {c : Char} (l : Str) (h : c ∈ replaceCRLF l) :
    c ∈ l ∨ c = '\n' := by
  induction l using replaceCRLF.induct with
  | case1 => simp [replaceCRLF] at h
  | case2 d =>
    simp only [replaceCRLF] at h
    exact Or.inl h
  | case3 x y rest hxy ih =>
    rcases hxy with ⟨rfl, rfl⟩
    simp only [replaceCRLF, if_pos (And.intro rfl rfl)] at h
    rcases List.mem_cons.mp h with rfl | h2
    · exact Or.inr rfl
    · rcases ih h2 with h3 | h3
      · exact Or.inl (List.mem_cons_of_mem _ (List.mem_cons_of_mem _ h3))
      · exact Or.inr h3
  | case4 x y rest hxy ih =>
    simp only [replaceCRLF, if_neg hxy] at h
    rcases List.mem_cons.mp h with rfl | h2
    · exact Or.inl (List.mem_cons_self _ _)
    · rcases ih h2 with h3 | h3
      · exact Or.inl (List.mem_cons_of_mem _ h3)
      · exact Or.inr h3

theorem replaceCRLF_head_newline (y : Char) (rest : Str)
    (h : (replaceCRLF (y :: rest)).head? = some '\n') :
    y = '\n' ∨ (y = '\r' ∧ rest.head? = some '\n') := by
  cases rest with
  | nil =>
    simp only [replaceCRLF, List.head?_cons] at h
    exact Or.inl (by injection h)
  | cons z rs =>
    by_cases hyz : y = '\r' ∧ z = '\n'
    · exact Or.inr ⟨hyz.1, by rw [hyz.2]; rfl⟩
    · simp only [replaceCRLF, if_neg hyz, List.head?_cons] at h
      exact Or.inl (by injection h)

theorem replaceCRLF_ne_nil (y : Char) (rest : Str) : replaceCRLF (y :: rest) ≠ [] := by
  cases rest with
  | nil => simp [replaceCRLF]
  | cons z rs =>
    by_cases hyz : y = '\r' ∧ z = '\n'
    · simp [replaceCRLF, hyz]
    · simp [replaceCRLF, hyz]

theorem hasTriple_tail (a b c x : Char) (l : Str)
    (h : hasTriple a b c (x :: l) = false) : hasTriple a b c l = false := by
  cases l with
  | nil => rfl
  | cons y rest =>
    cases rest with
    | nil => rfl
    | cons z rs =>
      simp only [hasTriple] at h
      rcases Bool.or_eq_false_iff.mp h with ⟨_, h2⟩
      exact h2

theorem hasPair_cons_false (a b x : Char) (l : Str)
    (hhead : x ≠ a ∨ l.head? ≠ some b) (htail : hasPair a b l = false) :
    hasPair a b (x :: l) = false := by
  cases l with
  | nil => rfl
  | cons y ys =>
    rw [hasPair_cons_cons]
    rcases hhead with hx | hy
    · simp [hx, htail]
    · have hyb : y ≠ b := fun hcontra => hy (by rw [hcontra]; rfl)
      simp [hyb, htail]

theorem replaceCRLF_no_pair (l : Str) (h : hasTriple '\r' '\r' '\n' l = false) :
    hasPair '\r' '\n' (replaceCRLF l) = false := by
  induction l using replaceCRLF.induct with
  | case1 => rfl
  | case2 c => rfl
  | case3 x y rest hxy ih =>
    rcases hxy with ⟨rfl, rfl⟩
    have hrest : hasTriple '\r' '\r' '\n' rest = false :=
      hasTriple_tail _ _ _ _ _ (hasTriple_tail _ _ _ _ _ h)
    have hstep : replaceCRLF ('\r' :: '\n' :: rest) = '\n' :: replaceCRLF rest := by
      simp [replaceCRLF]
    rw [hstep]
    exact hasPair_cons_false _ _ _ _ (Or.inl (by decide)) (ih hrest)
  | case4 x y rest hxy ih =>
    have htail : hasTriple '\r' '\r' '\n' (y :: rest) = false := hasTriple_tail _ _ _ _ _ h
    have hstep : replaceCRLF (x :: y :: rest) = x :: replaceCRLF (y :: rest) := by
      simp only [replaceCRLF, if_neg hxy]
    rw [hstep]
    refine hasPair_cons_false _ _ _ _ ?_ (ih htail)
    by_cases hx : x = '\r'
    · right
      intro hhead
      rcases replaceCRLF_head_newline y rest hhead with hy | ⟨hy, hresthead⟩
      · exact hxy ⟨hx, hy⟩
      · cases rest with
        | nil => simp at hresthead
        | cons w ws =>
          have hw : w = '\n' := by
            simp only [List.head?_cons] at hresthead
            injection hresthead
          subst hx; subst hy; subst hw
          simp [hasTriple] at h
    · exact Or.inl hx

theorem replaceNBSP_no_nbsp (l : Str) : '\u00a0' ∉ replaceNBSP l := by
  intro h
  rcases List.mem_map.mp h with ⟨c, _, hc⟩
  by_cases hcn : c = '\u00a0'
  · rw [if_pos hcn] at hc
    exact absurd hc (by decide)
  · rw [if_neg hcn] at hc
    exact hcn hc

theorem replaceNBSP_id (l : Str) (h : '\u00a0' ∉ l) : replaceNBSP l = l := by
  unfold replaceNBSP
  conv_rhs => rw [← List.map_id l]
  apply List.map_congr_left
  intro c hc
  have hcn : c ≠ '\u00a0' := fun hcontra => h (hcontra ▸ hc)
  simp [hcn]

theorem hasTriple_map_rev (a b c : Char) (f : Char → Char) (l : Str)
    (ha : ∀ x, f x = a → x = a) (hb : ∀ x, f x = b → x = b) (hc : ∀ x, f x = c → x = c)
    (h : hasTriple a b c (l.map f) = true) : hasTriple a b c l = true := by
  induction l with
  | nil => simpa [hasTriple] using h
  | cons x rest ih =>
    cases rest with
    | nil => simpa [hasTriple] using h
    | cons y rs =>
      cases rs with
      | nil => simpa [hasTriple] using h
      | cons z ws =>
        simp only [List.map_cons, hasTriple] at h ⊢
        rcases Bool.or_eq_true_iff.mp h with h1 | h2
        · rcases Bool.and_eq_true_iff.mp h1 with ⟨h12, h3⟩
          rcases Bool.and_eq_true_iff.mp h12 with ⟨h1a, h2b⟩
          have hx : x = a := ha x (of_decide_eq_true h1a)
          have hy : y = b := hb y (of_decide_eq_true h2b)
          have hz : z = c := hc z (of_decide_eq_true h3)
          subst hx; subst hy; subst hz
          simp
        · have := ih (by simpa [hasTriple] using h2)
          exact Bool.or_eq_true_iff.mpr (Or.inr this)

theorem hasTriple_replaceNBSP (l : Str)
    (h : hasTriple '\r' '\r' '\n' l = false) :
    hasTriple '\r' '\r' '\n' (replaceNBSP l) = false := by
  cases hval : hasTriple '\r' '\r' '\n' (replaceNBSP l) with
  | false => rfl
  | true =>
    exfalso
    have := hasTriple_map_rev '\r' '\r' '\n' _ l
      (fun x hx => by by_cases hxn : x = '\u00a0' <;> simp [hxn] at hx <;> first | exact absurd hx (by decide) | exact hx)
      (fun x hx => by by_cases hxn : x = '\u00a0' <;> simp [hxn] at hx <;> first | exact absurd hx (by decide) | exact hx)
      (fun x hx => by by_cases hxn : x = '\u00a0' <;> simp [hxn] at hx <;> first | exact absurd hx (by decide) | exact hx)
      hval
    rw [h] at this
    exact Bool.false_ne_true this

theorem canonicalize_text_blob_idem_of_no_rrn (s : Str)
    (h : hasTriple '\r' '\r' '\n' s = false) :
    canonicalize_text_blob (canonicalize_text_blob s) = canonicalize_text_blob s := by
  unfold canonicalize_text_blob
  set t1 := replaceCRLF (replaceNBSP s) with ht1
  set s1 := pyStrip t1 with hs1
  have hnbsp_t1 : '\u00a0' ∉ t1 := by
    intro hmem
    rcases mem_replaceCRLF _ hmem with hmem2 | heq
    · exact replaceNBSP_no_nbsp s hmem2
    · exact absurd heq (by decide)
  have hnbsp_s1 : '\u00a0' ∉ s1 := fun hmem => hnbsp_t1 (pyStrip_subset t1 hmem)
  have hpair_t1 : hasPair '\r' '\n' t1 = false :=
    replaceCRLF_no_pair _ (hasTriple_replaceNBSP s h)
  have hpair_s1 : hasPair '\r' '\n' s1 = false := hasPair_pyStrip t1 hpair_t1
  rw [replaceNBSP_id s1 hnbsp_s1, replaceCRLF_id s1 hpair_s1, hs1, pyStrip_idem]

/-! ## The characters of a canonical snapshot -/

theorem mem_collapseWS {c : Char} (b : Bool) (l : Str) (h : c ∈ collapseWS b l) :
    c = ' ' ∨ (c ∈ l ∧ isPySpace c = false) := by
  induction l generalizing b with
  | nil => simp [collapseWS] at h
  | cons x rest ih =>
    by_cases hx : isPySpace x = true
    · cases b with
      | true =>
        simp only [collapseWS, hx, if_pos] at h
        rcases ih true (by simpa using h) with h1 | ⟨h2, h3⟩
        · exact Or.inl h1
        · exact Or.inr ⟨List.mem_cons_of_mem _ h2, h3⟩
      | false =>
        simp only [collapseWS, hx, if_pos] at h
        rcases List.mem_cons.mp (by simpa using h) with rfl | h2
        · exact Or.inl rfl
        · rcases ih true h2 with h1 | ⟨h3, h4⟩
          · exact Or.inl h1
          · exact Or.inr ⟨List.mem_cons_of_mem _ h3, h4⟩
    · have hx2 : isPySpace x = false := by simpa using hx
      simp only [collapseWS, hx2, Bool.false_eq_true, if_false, List.mem_cons] at h
      rcases h with h1 | h2
      · subst h1
        exact Or.inr ⟨List.mem_cons_self _ _, hx2⟩
      · rcases ih false h2 with h1 | ⟨h3, h4⟩
        · exact Or.inl h1
        · exact Or.inr ⟨List.mem_cons_of_mem _ h3, h4⟩

theorem mem_normalize_name {c : Char} (s : Str) (h : c ∈ normalize_name s) :
    c = ' ' ∨ isPySpace c = false := by
  rcases mem_collapseWS false _ h with h1 | ⟨_, h2⟩
  · exact Or.inl h1
  · exact Or.inr h2

theorem digitChar_not_ws (m : Nat) : isPySpace (Nat.digitChar (m % 10)) = false := by
  have hlt : m % 10 < 10 := Nat.mod_lt _ (by decide)
  set k := m % 10 with hk
  interval_cases k <;> decide

theorem mem_natToRevDigits {c : Char} (fuel n : Nat) (h : c ∈ natToRevDigits fuel n) :
    isPySpace c = false := by
  induction fuel generalizing n with
  | zero => simp [natToRevDigits] at h
  | succ fuel ih =>
    cases n with
    | zero => simp [natToRevDigits] at h
    | succ m =>
      simp only [natToRevDigits, List.mem_cons] at h
      rcases h with rfl | h2
      · exact digitChar_not_ws (m + 1)
      · exact ih _ h2

theorem mem_natToStr {c : Char} (n : Nat) (h : c ∈ natToStr n) : isPySpace c = false := by
  unfold natToStr at h
  by_cases hn : n = 0
  · rw [if_pos hn] at h
    rcases List.mem_singleton.mp h with rfl
    decide
  · rw [if_neg hn] at h
    exact mem_natToRevDigits n n (List.mem_reverse.mp h)

theorem mem_rowLine {c : Char} (r : Row) (h : c ∈ rowLine r) :
    c ∈ r.1 ∨ c ∈ r.2.1 ∨ c ∈ r.2.2.1 ∨ c ∈ r.2.2.2 ∨ c = ' ' ∨ c = '|' := by
  unfold rowLine at h
  simp only [List.mem_append] at h
  have hsep : ∀ d : Char, d ∈ " | ".data → d = ' ' ∨ d = '|' := by decide
  rcases h with h | h | h | h | h | h | h
  · exact Or.inl h
  · rcases hsep c h with h2 | h2
    · exact Or.inr (Or.inr (Or.inr (Or.inr (Or.inl h2))))
    · exact Or.inr (Or.inr (Or.inr (Or.inr (Or.inr h2))))
  · exact Or.inr (Or.inl h)
  · rcases hsep c h with h2 | h2
    · exact Or.inr (Or.inr (Or.inr (Or.inr (Or.inl h2))))
    · exact Or.inr (Or.inr (Or.inr (Or.inr (Or.inr h2))))
  · exact Or.inr (Or.inr (Or.inl h))
  · rcases hsep c h with h2 | h2
    · exact Or.inr (Or.inr (Or.inr (Or.inr (Or.inl h2))))
    · exact Or.inr (Or.inr (Or.inr (Or.inr (Or.inr h2))))
  · exact Or.inr (Or.inr (Or.inr (Or.inl h)))

theorem mem_intercalate_char {c : Char} (sep : Char) (L : List Str)
    (h : c ∈ List.intercalate [sep] L) : c = sep ∨ ∃ l ∈ L, c ∈ l := by
  induction L with
  | nil => simp [List.intercalate, List.intersperse] at h
  | cons x xs ih =>
    cases xs with
    | nil =>
      simp only [List.intercalate, List.intersperse, List.flatten] at h
      rw [List.append_nil] at h
      exact Or.inr ⟨x, List.mem_singleton_self x, h⟩
    | cons y zs =>
      have hstep : List.intercalate [sep] (x :: y :: zs) =
          x ++ [sep] ++ List.intercalate [sep] (y :: zs) := by
        simp [List.intercalate, List.intersperse_cons₂, List.flatten]
      rw [hstep] at h
      simp only [List.append_assoc, List.mem_append, List.mem_singleton] at h
      rcases h with h1 | h1 | h1
      · exact Or.inr ⟨x, List.mem_cons_self _ _, h1⟩
      · exact Or.inl h1
      · rcases ih h1 with h2 | ⟨l, hl, hcl⟩
        · exact Or.inl h2
        · exact Or.inr ⟨l, List.mem_cons_of_mem _ hl, hcl⟩

theorem not_mem_canonical_snapshot {a : Char} (items : List SilverItem)
    (hws : isPySpace a = true) (hsp : a ≠ ' ') (hnl : a ≠ '\n') :
    a ∉ canonical_snapshot items := by
  intro hmem
  unfold canonical_snapshot at hmem
  have h1 := pyStrip_subset _ hmem
  rcases mem_intercalate_char '\n' _ h1 with h2 | ⟨line, hline, h3⟩
  · exact hnl h2
  · rcases List.mem_map.mp hline with ⟨r, hr, rfl⟩
    have hr2 : r ∈ items.map rowOfItem := (List.perm_insertionSort rowLE _).subset hr
    rcases List.mem_map.mp hr2 with ⟨it, _, rfl⟩
    rcases mem_rowLine _ h3 with h4 | h4 | h4 | h4 | h4 | h4
    · rcases mem_normalize_name _ h4 with h5 | h5
      · exact hsp h5
      · rw [hws] at h5; exact absurd h5 (by decide)
    · rcases mem_normalize_name _ h4 with h5 | h5
      · exact hsp h5
      · rw [hws] at h5; exact absurd h5 (by decide)
    · revert h4
      show a ∈ (rowOfItem it).2.2.1 → False
      unfold rowOfItem
      cases it.buy with
      | none => simp
      | some n =>
        intro h4
        have h5 := mem_natToStr n h4
        rw [hws] at h5
        exact absurd h5 (by decide)
    · revert h4
      show a ∈ (rowOfItem it).2.2.2 → False
      unfold rowOfItem
      cases it.sell with
      | none => simp
      | some n =>
        intro h4
        have h5 := mem_natToStr n h4
        rw [hws] at h5
        exact absurd h5 (by decide)
    · exact hsp h4
    · subst h4
      exact absurd hws (by decide)

theorem canonicalize_text_blob_fixes_snapshot (items : List SilverItem) :
    canonicalize_text_blob (canonical_snapshot items) = canonical_snapshot items := by
  have hnb : '\u00a0' ∉ canonical_snapshot items :=
    not_mem_canonical_snapshot items (by decide) (by decide) (by decide)
  have hcr : '\r' ∉ canonical_snapshot items :=
    not_mem_canonical_snapshot items (by decide) (by decide) (by decide)
  unfold canonicalize_text_blob
  rw [replaceNBSP_id _ hnb, replaceCRLF_id _ (hasPair_of_not_mem '\n' _ hcr)]
  unfold canonical_snapshot
  exact pyStrip_idem _

/-! ## `normalize_name` computes the space-joined word decomposition -/

theorem collapseWS_true_eq (l : Str) : collapseWS true l = collapseWS false (dropWS l) := by
  induction l with
  | nil => rfl
  | cons c rest ih =>
    by_cases hc : isPySpace c = true
    · rw [dropWS_cons_of_ws rest hc]
      simp only [collapseWS, hc, if_pos]
      exact ih
    · have hc2 : isPySpace c = false := by simpa using hc
      rw [dropWS_cons_of_nonws rest hc2]
      simp [collapseWS, hc2]

theorem collapseWS_append_nonws (w z : Str) (hw : ∀ c ∈ w, isPySpace c = false) :
    collapseWS false (w ++ z) = w ++ collapseWS false z := by
  induction w with
  | nil => rfl
  | cons c rest ih =>
    have hc : isPySpace c = false := hw c (List.mem_cons_self _ _)
    have hrest := ih (fun b hb => hw b (List.mem_cons_of_mem _ hb))
    simp only [List.cons_append, collapseWS, hc, Bool.false_eq_true, if_false]
    exact congrArg (fun t => c :: t) hrest

theorem collapseWS_nonws_id (w : Str) (hw : ∀ c ∈ w, isPySpace c = false) :
    collapseWS false w = w := by
  have := collapseWS_append_nonws w [] hw
  simpa [collapseWS] using this

theorem wordsAux_append_nonws (w : Str) (hw : ∀ c ∈ w, isPySpace c = false) :
    ∀ (cur l : Str), wordsAux cur (w ++ l) = wordsAux (w.reverse ++ cur) l := by
  induction w with
  | nil => intro cur l; rfl
  | cons c rest ih =>
    intro cur l
    have hc : isPySpace c = false := hw c (List.mem_cons_self _ _)
    have hrest := ih (fun b hb => hw b (List.mem_cons_of_mem _ hb))
    simp only [List.cons_append, wordsAux, hc, Bool.false_eq_true, if_false]
    rw [List.reverse_cons, List.append_assoc, List.singleton_append]
    exact hrest (c :: cur) l

theorem wordsAux_nil_ws_head {c : Char} (l : Str) (hc : isPySpace c = true) :
    wordsAux [] (c :: l) = wordsAux [] l := by
  simp [wordsAux, hc]

theorem wordsOf_dropWS (l : Str) : wordsOf (dropWS l) = wordsOf l := by
  induction l with
  | nil => rfl
  | cons c rest ih =>
    by_cases hc : isPySpace c = true
    · rw [dropWS_cons_of_ws rest hc]
      rw [ih]
      exact (wordsAux_nil_ws_head rest hc).symm
    · rw [dropWS_cons_of_nonws rest (by simpa using hc)]

theorem wordsAux_all_ws (r : Str) (hr : ∀ c ∈ r, isPySpace c = true) (cur : Str) :
    wordsAux cur r = if cur = [] then [] else [cur.reverse] := by
  induction r generalizing cur with
  | nil => rfl
  | cons d r2 ih =>
    have hd : isPySpace d = true := hr d (List.mem_cons_self _ _)
    have hr2 : ∀ c ∈ r2, isPySpace c = true := fun b hb => hr b (List.mem_cons_of_mem _ hb)
    by_cases hcur : cur = []
    · subst hcur
      simp [wordsAux, hd, ih hr2 []]
    · simp [wordsAux, hd, hcur, ih hr2 []]

theorem wordsAux_eq_nil (l : Str) :
    ∀ cur, wordsAux cur l = [] → cur = [] ∧ ∀ c ∈ l, isPySpace c = true := by
  induction l with
  | nil =>
    intro cur h
    by_cases hcur : cur = []
    · exact ⟨hcur, by simp⟩
    · rw [wordsAux, if_neg hcur] at h
      exact absurd h (List.cons_ne_nil _ _)
  | cons c rest ih =>
    intro cur h
    by_cases hc : isPySpace c = true
    · by_cases hcur : cur = []
      · rw [wordsAux, if_pos hc, if_pos hcur] at h
        rcases ih [] h with ⟨_, hall⟩
        refine ⟨hcur, fun b hb => ?_⟩
        rcases List.mem_cons.mp hb with rfl | hb2
        · exact hc
        · exact hall b hb2
      · rw [wordsAux, if_pos hc, if_neg hcur] at h
        exact absurd h (List.cons_ne_nil _ _)
    · have hc2 : isPySpace c = false := by simpa using hc
      rw [wordsAux, if_neg (by simp [hc2])] at h
      rcases ih (c :: cur) h with ⟨habs, _⟩
      exact absurd habs (List.cons_ne_nil _ _)

theorem dropWS_append_all_ws (p y : Str) (hp : ∀ c ∈ p, isPySpace c = true) :
    dropWS (p ++ y) = dropWS y := by
  induction p with
  | nil => rfl
  | cons c rest ih =>
    have hc : isPySpace c = true := hp c (List.mem_cons_self _ _)
    rw [List.cons_append, dropWS_cons_of_ws _ hc]
    exact ih (fun b hb => hp b (List.mem_cons_of_mem _ hb))

theorem joinWords_cons_of_ne (w : Str) (ws : List Str) (h : ws ≠ []) :
    joinWords (w :: ws) = w ++ ' ' :: joinWords ws := by
  cases ws with
  | nil => exact absurd rfl h
  | cons y zs =>
    show List.intercalate [' '] (w :: y :: zs) = w ++ ' ' :: List.intercalate [' '] (y :: zs)
    simp [List.intercalate, List.intersperse_cons₂]

theorem joinWords_singleton (w : Str) : joinWords [w] = w := by
  simp [joinWords, List.intercalate, List.intersperse]

theorem dropNonWS_head (l : Str) :
    l.dropWhile (fun c => !isPySpace c) = [] ∨
    ∃ d r2, l.dropWhile (fun c => !isPySpace c) = d :: r2 ∧ isPySpace d = true := by
  induction l with
  | nil => exact Or.inl rfl
  | cons c rest ih =>
    by_cases hc : isPySpace c = true
    · refine Or.inr ⟨c, rest, ?_, hc⟩
      simp [List.dropWhile_cons, hc]
    · have hc2 : isPySpace c = false := by simpa using hc
      rw [List.dropWhile_cons]
      simp only [hc2, Bool.not_false, if_true]
      exact ih

theorem dropWS_stripTrailing_comm (l : Str) :
    dropWS (stripTrailing l) = stripTrailing (dropWS l) := by
  rcases dropWS_head_nonws l with h0 | ⟨c, t, h0, hc⟩
  · have hall : ∀ a ∈ l, isPySpace a = true := List.dropWhile_eq_nil_iff.mp h0
    have hst : stripTrailing l = [] := (stripTrailing_eq_nil_iff l).mpr hall
    rw [hst, h0]
    rfl
  · have hdecomp : l.takeWhile (fun a => isPySpace a) ++ (c :: t) = l := by
      rw [← h0]
      exact List.takeWhile_append_dropWhile (fun a => isPySpace a) l
    have hp : ∀ a ∈ l.takeWhile (fun a => isPySpace a), isPySpace a = true := by
      intro a ha
      exact List.mem_takeWhile_imp ha
    have hct_ne : stripTrailing (c :: t) ≠ [] := by
      intro habs
      have := (stripTrailing_eq_nil_iff _).mp habs c (List.mem_cons_self _ _)
      rw [hc] at this
      exact absurd this (by decide)
    calc dropWS (stripTrailing l)
        = dropWS (stripTrailing (l.takeWhile (fun a => isPySpace a) ++ (c :: t))) := by
          rw [hdecomp]
      _ = dropWS (l.takeWhile (fun a => isPySpace a) ++ stripTrailing (c :: t)) := by
          rw [stripTrailing_append, if_neg hct_ne]
      _ = dropWS (stripTrailing (c :: t)) := dropWS_append_all_ws _ _ hp
      _ = stripTrailing (c :: t) := by
          rcases stripTrailing_head? (c :: t) with habs | hhead
          · exact absurd habs hct_ne
          · cases hval : stripTrailing (c :: t) with
            | nil => exact absurd hval hct_ne
            | cons x xs =>
              rw [hval] at hhead
              simp only [List.head?_cons] at hhead
              have hxc : x = c := by injection hhead
              subst hxc
              exact dropWS_of_head_nonws xs hc
      _ = stripTrailing (dropWS l) := by rw [h0]

theorem collapseWS_ws_head {d : Char} (z : Str) (hd : isPySpace d = true) :
    collapseWS false (d :: z) = ' ' :: collapseWS true z := by
  simp [collapseWS, hd]

theorem collapse_strip_eq_joinWords_aux :
    ∀ (n : Nat) (t : Str), t.length ≤ n →
      (t = [] ∨ ∃ c t2, t = c :: t2 ∧ isPySpace c = false) →
      collapseWS false (stripTrailing t) = joinWords (wordsAux [] t) := by
  intro n
  induction n with
  | zero =>
    intro t hlen _
    have ht : t = [] := List.length_eq_zero.mp (Nat.le_zero.mp hlen)
    subst ht
    rfl
  | succ n ih =>
    intro t hlen hhead
    rcases hhead with rfl | ⟨c, t2, rfl, hc⟩
    · rfl
    · set w := (c :: t2).takeWhile (fun a => !isPySpace a) with hw
      set r := (c :: t2).dropWhile (fun a => !isPySpace a) with hr
      have hdecomp : w ++ r = c :: t2 :=
        List.takeWhile_append_dropWhile (fun a => !isPySpace a) (c :: t2)
      have hw_all : ∀ a ∈ w, isPySpace a = false := by
        intro a ha
        have := List.mem_takeWhile_imp ha
        simpa using this
      have hw_ne : w ≠ [] := by
        rw [hw, List.takeWhile_cons_of_pos (by simp [hc])]
        exact List.cons_ne_nil _ _
      by_cases hsr : stripTrailing r = []
      · have hr_all : ∀ a ∈ r, isPySpace a = true := (stripTrailing_eq_nil_iff r).mp hsr
        have hlhs : collapseWS false (stripTrailing (c :: t2)) = w := by
          rw [← hdecomp, stripTrailing_append, if_pos hsr,
            stripTrailing_of_all_nonws w hw_all]
          exact collapseWS_nonws_id w hw_all
        have hrhs : wordsAux [] (c :: t2) = [w] := by
          rw [← hdecomp, wordsAux_append_nonws w hw_all [] r, List.append_nil,
            wordsAux_all_ws r hr_all, if_neg (by simpa using hw_ne), List.reverse_reverse]
        rw [hlhs, hrhs, joinWords_singleton]
      · have hr_ne : r ≠ [] := by
          intro habs
          rw [habs] at hsr
          exact hsr rfl
        rcases dropNonWS_head (c :: t2) with habs | ⟨d, r2, hdr, hd⟩
        · exact absurd (hr ▸ habs) hr_ne
        · have hr_eq : r = d :: r2 := by rw [hr, hdr]
          have h_str2_ne : stripTrailing r2 ≠ [] := by
            intro habs
            apply hsr
            rw [hr_eq]
            show (if stripTrailing r2 = [] ∧ isPySpace d = true then []
              else d :: stripTrailing r2) = []
            rw [if_pos ⟨habs, hd⟩]
          have hstep_r : stripTrailing r = d :: stripTrailing r2 := by
            rw [hr_eq]
            show (if stripTrailing r2 = [] ∧ isPySpace d = true then []
              else d :: stripTrailing r2) = d :: stripTrailing r2
            rw [if_neg (fun hand => h_str2_ne hand.1)]
          set v := dropWS r2 with hv
          have hvlen : v.length ≤ n := by
            have h1 : v.length ≤ r2.length :=
              List.Sublist.length_le (List.dropWhile_sublist _)
            have h2 : w.length + (d :: r2).length = (c :: t2).length := by
              rw [← hdecomp, hr_eq]
              exact (List.length_append _ _).symm
            have h3 : 1 ≤ w.length := by
              cases hwval : w with
              | nil => exact absurd hwval hw_ne
              | cons a as => simp
            simp only [List.length_cons] at h2 hlen
            omega
          have hvhead : v = [] ∨ ∃ a v2, v = a :: v2 ∧ isPySpace a = false := by
            rcases dropWS_head_nonws r2 with h1 | ⟨a, v2, h1, h2⟩
            · exact Or.inl h1
            · exact Or.inr ⟨a, v2, h1, h2⟩
          have hih := ih v hvlen hvhead
          have hv_words_ne : wordsAux [] v ≠ [] := by
            intro habs
            rcases wordsAux_eq_nil v [] habs with ⟨_, hallv⟩
            apply h_str2_ne
            apply (stripTrailing_eq_nil_iff r2).mpr
            intro a ha
            have hdecomp2 : r2.takeWhile (fun b => isPySpace b) ++ v = r2 :=
              List.takeWhile_append_dropWhile (fun b => isPySpace b) r2
            rw [← hdecomp2] at ha
            rcases List.mem_append.mp ha with h1 | h1
            · exact List.mem_takeWhile_imp h1
            · exact hallv a h1
          have hlhs : collapseWS false (stripTrailing (c :: t2)) =
              w ++ ' ' :: joinWords (wordsAux [] v) := by
            rw [← hdecomp, stripTrailing_append, if_neg hsr,
              collapseWS_append_nonws w _ hw_all, hstep_r,
              collapseWS_ws_head _ hd, collapseWS_true_eq,
              dropWS_stripTrailing_comm, ← hv, hih]
          have hrhs : wordsAux [] (c :: t2) = w :: wordsAux [] v := by
            rw [← hdecomp, wordsAux_append_nonws w hw_all [] r, List.append_nil, hr_eq]
            have : wordsAux w.reverse (d :: r2) = w.reverse.reverse :: wordsAux [] r2 := by
              simp [wordsAux, hd, by simpa using hw_ne]
            rw [this, List.reverse_reverse]
            have hwv : wordsAux [] v = wordsAux [] r2 := wordsOf_dropWS r2
            rw [hwv]
          rw [hlhs, hrhs, joinWords_cons_of_ne _ _ hv_words_ne]

theorem wordsAux_map_ws_compatible (f : Char → Char)
    (hf : ∀ c, (isPySpace c = true → isPySpace (f c) = true) ∧ (isPySpace c = false → f c = c)) :
    ∀ (l cur : Str), wordsAux cur (l.map f) = wordsAux cur l := by
  intro l
  induction l with
  | nil => intro cur; rfl
  | cons c rest ih =>
    intro cur
    by_cases hc : isPySpace c = true
    · have hfc : isPySpace (f c) = true := (hf c).1 hc
      simp only [List.map_cons, wordsAux, hfc, hc, if_true]
      by_cases hcur : cur = []
      · rw [if_pos hcur, if_pos hcur, ih []]
      · rw [if_neg hcur, if_neg hcur, ih []]
    · have hc2 : isPySpace c = false := by simpa using hc
      have hfc : f c = c := (hf c).2 hc2
      simp only [List.map_cons, wordsAux, hfc, hc2, Bool.false_eq_true, if_false]
      exact ih (c :: cur)

theorem wordsOf_replaceNBSP (s : Str) : wordsOf (replaceNBSP s) = wordsOf s := by
  unfold wordsOf replaceNBSP
  apply wordsAux_map_ws_compatible
  intro c
  constructor
  · intro hc
    by_cases hcn : c = '\u00a0'
    · simp [hcn]
      decide
    · simpa [hcn] using hc
  · intro hc
    have hcn : c ≠ '\u00a0' := by
      intro habs
      rw [habs] at hc
      exact absurd hc (by decide)
    simp [hcn]

theorem normalize_name_eq_joinWords (s : Str) :
    normalize_name s = joinWords (wordsOf s) := by
  unfold normalize_name pyStrip
  set u := replaceNBSP s with hu
  have hhead : dropWS u = [] ∨ ∃ c t2, dropWS u = c :: t2 ∧ isPySpace c = false := by
    rcases dropWS_head_nonws u with h | ⟨c, t, h1, h2⟩
    · exact Or.inl h
    · exact Or.inr ⟨c, t, h1, h2⟩
  have := collapse_strip_eq_joinWords_aux (dropWS u).length (dropWS u) le_rfl hhead
  rw [this]
  have h2 : wordsAux [] (dropWS u) = wordsAux [] u := wordsOf_dropWS u
  rw [h2]
  show joinWords (wordsOf u) = joinWords (wordsOf s)
  rw [hu, wordsOf_replaceNBSP]

theorem normalize_name_congr_words {s t : Str} (h : wordsOf s = wordsOf t) :
    normalize_name s = normalize_name t := by
  rw [normalize_name_eq_joinWords, normalize_name_eq_joinWords, h]

/-! ## The key order used by the snapshot sort -/

theorem strLtB_irrefl (l : Str) : strLtB l l = false := by
  induction l with
  | nil => rfl
  | cons x xs ih => simp [strLtB, ih, lt_irrefl]

theorem strLtB_trans {a b c : Str} (h1 : strLtB a b = true) (h2 : strLtB b c = true) :
    strLtB a c = true := by
  induction a generalizing b c with
  | nil =>
    cases c with
    | nil => cases b <;> simp [strLtB] at h1 h2
    | cons w ws => rfl
  | cons x xs ih =>
    cases b with
    | nil => simp [strLtB] at h1
    | cons y ys =>
      cases c with
      | nil => simp [strLtB] at h2
      | cons w ws =>
        simp only [strLtB, Bool.or_eq_true, Bool.and_eq_true, decide_eq_true_eq] at h1 h2 ⊢
        rcases h1 with h1 | ⟨rfl, h1⟩
        · rcases h2 with h2 | ⟨rfl, h2⟩
          · exact Or.inl (lt_trans h1 h2)
          · exact Or.inl h1
        · rcases h2 with h2 | ⟨rfl, h2⟩
          · exact Or.inl h2
          · exact Or.inr ⟨rfl, ih h1 h2⟩

theorem strLtB_asymm {a b : Str} (h : strLtB a b = true) : strLtB b a = false := by
  cases hval : strLtB b a with
  | false => rfl
  | true =>
    have := strLtB_trans h hval
    rw [strLtB_irrefl] at this
    exact absurd this (by decide)

theorem strLtB_connex {a b : Str} (h1 : strLtB a b = false) (h2 : strLtB b a = false) :
    a = b := by
  induction a generalizing b with
  | nil =>
    cases b with
    | nil => rfl
    | cons y ys => simp [strLtB] at h1
  | cons x xs ih =>
    cases b with
    | nil => simp [strLtB] at h2
    | cons y ys =>
      simp only [strLtB, Bool.or_eq_false_iff, Bool.and_eq_false_iff, decide_eq_false_iff_not,
        decide_eq_true_eq] at h1 h2
      rcases h1 with ⟨hxy, h1r⟩
      rcases h2 with ⟨hyx, h2r⟩
      have hxyeq : x = y := le_antisymm (le_of_not_lt hyx) (le_of_not_lt hxy)
      subst hxyeq
      rcases h1r with h1r | h1r
      · exact absurd rfl h1r
      · rcases h2r with h2r | h2r
        · exact absurd rfl h2r
        · rw [ih h1r h2r]

theorem pairLtB_trans {p q r : Str × Str} (h1 : pairLtB p q = true) (h2 : pairLtB q r = true) :
    pairLtB p r = true := by
  simp only [pairLtB, Bool.or_eq_true, Bool.and_eq_true, decide_eq_true_eq] at h1 h2 ⊢
  rcases h1 with h1 | ⟨he1, h1⟩
  · rcases h2 with h2 | ⟨he2, h2⟩
    · exact Or.inl (strLtB_trans h1 h2)
    · exact Or.inl (he2 ▸ h1)
  · rcases h2 with h2 | ⟨he2, h2⟩
    · exact Or.inl (he1 ▸ h2)
    · exact Or.inr ⟨he1.trans he2, strLtB_trans h1 h2⟩

theorem pairLtB_irrefl (p : Str × Str) : pairLtB p p = false := by
  simp [pairLtB, strLtB_irrefl]

theorem pairLtB_asymm {p q : Str × Str} (h : pairLtB p q = true) : pairLtB q p = false := by
  cases hval : pairLtB q p with
  | false => rfl
  | true =>
    have := pairLtB_trans h hval
    rw [pairLtB_irrefl] at this
    exact absurd this (by decide)

theorem pairLtB_connex {p q : Str × Str} (h1 : pairLtB p q = false) (h2 : pairLtB q p = false) :
    p = q := by
  simp only [pairLtB, Bool.or_eq_false_iff, Bool.and_eq_false_iff, decide_eq_false_iff_not,
    decide_eq_true_eq] at h1 h2
  rcases h1 with ⟨h1a, h1b⟩
  rcases h2 with ⟨h2a, h2b⟩
  have hfst : p.1 = q.1 := strLtB_connex h1a h2a
  rcases h1b with h1b | h1b
  · exact absurd hfst h1b
  · rcases h2b with h2b | h2b
    · exact absurd hfst.symm h2b
    · have hsnd : p.2 = q.2 := strLtB_connex h1b h2b
      exact Prod.ext hfst hsnd

instance : IsTotal Row rowLE := by
  constructor
  intro a b
  unfold rowLE
  cases hval : pairLtB (rowKey b) (rowKey a) with
  | false => exact Or.inl rfl
  | true => exact Or.inr (pairLtB_asymm hval)

instance : IsTrans Row rowLE := by
  constructor
  intro a b c h1 h2
  unfold rowLE at h1 h2 ⊢
  cases hval : pairLtB (rowKey c) (rowKey a) with
  | false => rfl
  | true =>
    exfalso
    cases hab : pairLtB (rowKey a) (rowKey b) with
    | true =>
      have := pairLtB_trans hval hab
      rw [h2] at this
      exact absurd this (by decide)
    | false =>
      have heq := pairLtB_connex hab h1
      rw [heq] at hval
      rw [hval] at h2
      exact absurd h2 (by decide)

instance : IsAntisymm Row rowLT := by
  constructor
  intro a b h1 h2
  exfalso
  unfold rowLT at h1 h2
  have := pairLtB_asymm h1
  rw [this] at h2
  exact absurd h2 (by decide)

theorem insertionSort_eq_of_perm_nodup_keys (l1 l2 : List Row)
    (hperm : l1.Perm l2) (hnodup : (l1.map rowKey).Nodup) :
    List.insertionSort rowLE l1 = List.insertionSort rowLE l2 := by
  have hs1 : List.Sorted rowLE (List.insertionSort rowLE l1) :=
    List.sorted_insertionSort rowLE l1
  have hs2 : List.Sorted rowLE (List.insertionSort rowLE l2) :=
    List.sorted_insertionSort rowLE l2
  have hp1 : (List.insertionSort rowLE l1).Perm l1 := List.perm_insertionSort rowLE l1
  have hp2 : (List.insertionSort rowLE l2).Perm l2 := List.perm_insertionSort rowLE l2
  have hperm12 : (List.insertionSort rowLE l1).Perm (List.insertionSort rowLE l2) :=
    (hp1.trans hperm).trans hp2.symm
  have hne1 : List.Pairwise (fun a b => rowKey a ≠ rowKey b) (List.insertionSort rowLE l1) :=
    List.pairwise_map.mp ((hp1.map rowKey).symm.nodup hnodup)
  have hne2 : List.Pairwise (fun a b => rowKey a ≠ rowKey b) (List.insertionSort rowLE l2) :=
    List.pairwise_map.mp ((hp2.map rowKey).symm.nodup ((hperm.map rowKey).nodup hnodup))
  have hstrict : ∀ {s : List Row},
      List.Pairwise rowLE s → List.Pairwise (fun a b => rowKey a ≠ rowKey b) s →
      List.Pairwise rowLT s := by
    intro s hle hne
    refine (hle.and hne).imp ?_
    intro a b ⟨hab, hne'⟩
    unfold rowLE at hab
    unfold rowLT
    cases hval : pairLtB (rowKey a) (rowKey b) with
    | true => rfl
    | false => exact absurd (pairLtB_connex hval hab) hne'
  exact List.eq_of_perm_of_sorted hperm12 (hstrict hs1 hne1) (hstrict hs2 hne2)

/-! ## `html.escape` produces fully escaped text -/

theorem replaceChar_append (c : Char) (rep xs ys : Str) :
    replaceChar c rep (xs ++ ys) = replaceChar c rep xs ++ replaceChar c rep ys := by
  induction xs with
  | nil => rfl
  | cons x rest ih =>
    show (if x = c then rep else [x]) ++ replaceChar c rep (rest ++ ys) = _
    rw [ih]
    show _ = ((if x = c then rep else [x]) ++ replaceChar c rep rest) ++ replaceChar c rep ys
    rw [List.append_assoc]

theorem htmlEscape_append (xs ys : Str) :
    htmlEscape (xs ++ ys) = htmlEscape xs ++ htmlEscape ys := by
  unfold htmlEscape
  rw [replaceChar_append, replaceChar_append, replaceChar_append, replaceChar_append,
    replaceChar_append]

theorem htmlEscape_single (c : Char) : htmlEscape [c] = escChar c := by
  by_cases h1 : c = '&'
  · subst h1; rfl
  · by_cases h2 : c = '<'
    · subst h2; rfl
    · by_cases h3 : c = '>'
      · subst h3; rfl
      · by_cases h4 : c = '"'
        · subst h4; rfl
        · by_cases h5 : c = '\u0027'
          · subst h5; rfl
          · simp [htmlEscape, replaceChar, escChar, h1, h2, h3, h4, h5]

theorem htmlEscape_cons (c : Char) (s : Str) :
    htmlEscape (c :: s) = escChar c ++ htmlEscape s := by
  have h : c :: s = [c] ++ s := rfl
  rw [h, htmlEscape_append, htmlEscape_single]

theorem escapedText_htmlEscape (s : Str) : EscapedText (htmlEscape s) := by
  induction s with
  | nil => exact EscapedText.nil
  | cons c rest ih =>
    rw [htmlEscape_cons]
    by_cases h1 : c = '&'
    · subst h1
      exact EscapedText.amp ih
    · by_cases h2 : c = '<'
      · subst h2
        exact EscapedText.lt ih
      · by_cases h3 : c = '>'
        · subst h3
          exact EscapedText.gt ih
        · by_cases h4 : c = '"'
          · subst h4
            exact EscapedText.quot ih
          · by_cases h5 : c = '\u0027'
            · subst h5
              exact EscapedText.apos ih
            · have hstep : escChar c ++ htmlEscape rest = c :: htmlEscape rest := by
                simp [escChar, h1, h2, h3, h4, h5]
              rw [hstep]
              exact EscapedText.safe h2 h3 h1 ih

theorem escapedText_no_raw_angles {t : Str} (h : EscapedText t) : '<' ∉ t ∧ '>' ∉ t := by
  induction h with
  | nil => exact ⟨List.not_mem_nil _, List.not_mem_nil _⟩
  | safe h1 h2 h3 _ ih =>
    refine ⟨?_, ?_⟩
    · intro hmem
      rcases List.mem_cons.mp hmem with heq | hmem2
      · exact h1 heq.symm
      · exact ih.1 hmem2
    · intro hmem
      rcases List.mem_cons.mp hmem with heq | hmem2
      · exact h2 heq.symm
      · exact ih.2 hmem2
  | amp _ ih =>
    refine ⟨?_, ?_⟩ <;> intro hmem <;> rcases List.mem_append.mp hmem with h2 | h2
    · exact absurd h2 (by decide)
    · exact ih.1 h2
    · exact absurd h2 (by decide)
    · exact ih.2 h2
  | lt _ ih =>
    refine ⟨?_, ?_⟩ <;> intro hmem <;> rcases List.mem_append.mp hmem with h2 | h2
    · exact absurd h2 (by decide)
    · exact ih.1 h2
    · exact absurd h2 (by decide)
    · exact ih.2 h2
  | gt _ ih =>
    refine ⟨?_, ?_⟩ <;> intro hmem <;> rcases List.mem_append.mp hmem with h2 | h2
    · exact absurd h2 (by decide)
    · exact ih.1 h2
    · exact absurd h2 (by decide)
    · exact ih.2 h2
  | quot _ ih =>
    refine ⟨?_, ?_⟩ <;> intro hmem <;> rcases List.mem_append.mp hmem with h2 | h2
    · exact absurd h2 (by decide)
    · exact ih.1 h2
    · exact absurd h2 (by decide)
    · exact ih.2 h2
  | apos _ ih =>
    refine ⟨?_, ?_⟩ <;> intro hmem <;> rcases List.mem_append.mp hmem with h2 | h2
    · exact absurd h2 (by decide)
    · exact ih.1 h2
    · exact absurd h2 (by decide)
    · exact ih.2 h2

/-! ## Snapshot invariance under permutation and whitespace noise -/

theorem rowOfItem_congr {a b : SilverItem} (h : itemNoiseEq a b) :
    rowOfItem a = rowOfItem b := by
  rcases h with ⟨hname, hunit, hbuy, hsell⟩
  unfold rowOfItem
  rw [normalize_name_congr_words hname, normalize_name_congr_words hunit, hbuy, hsell]

theorem forall2_map_rowOfItem {l1 l2 : List SilverItem}
    (h : List.Forall₂ itemNoiseEq l1 l2) : l1.map rowOfItem = l2.map rowOfItem := by
  induction h with
  | nil => rfl
  | cons hR _ ih =>
    simp only [List.map_cons, ih, rowOfItem_congr hR]

theorem canonical_snapshot_perm_nodup (l1 l2 l' : List SilverItem)
    (hperm : l1.Perm l') (hnoise : List.Forall₂ itemNoiseEq l' l2)
    (hkeys : (l1.map itemKey).Nodup) :
    canonical_snapshot l1 = canonical_snapshot l2 := by
  have hmap : l'.map rowOfItem = l2.map rowOfItem := forall2_map_rowOfItem hnoise
  have hpermrows : (l1.map rowOfItem).Perm (l'.map rowOfItem) := hperm.map _
  have hkeys2 : ((l1.map rowOfItem).map rowKey).Nodup := by
    rw [List.map_map]
    exact hkeys
  unfold canonical_snapshot
  rw [insertionSort_eq_of_perm_nodup_keys _ _ hpermrows hkeys2, hmap]

/-! ## Claim theorems -/

/-- C4: `parse_vnd_commas` returns an absent price exactly on the empty
stripped value, the placeholder glyphs `-`/`—`, and digit-free values; in
every other case it returns the (non-negative, `Nat`-valued) integer formed
by the digits that remain after deleting every non-digit character. -/
theorem C4_parse_vnd_commas_contract (value : Str) :
    (parse_vnd_commas value = none ↔
      (pyStrip value = [] ∨ pyStrip value = ['-'] ∨ pyStrip value = ['—'] ∨
        (pyStrip value).filter (fun c => pyIsDigit c) = [])) ∧
    (∀ n, parse_vnd_commas value = some n →
      n = digitsToNat ((pyStrip value).filter (fun c => pyIsDigit c))) := by
  unfold parse_vnd_commas
  by_cases h1 : pyStrip value = [] ∨ pyStrip value = ['-'] ∨ pyStrip value = ['—']
  · rw [if_pos h1]
    refine ⟨⟨fun _ => ?_, fun _ => rfl⟩, fun n hn => absurd hn (by simp)⟩
    rcases h1 with h | h | h
    · exact Or.inl h
    · exact Or.inr (Or.inl h)
    · exact Or.inr (Or.inr (Or.inl h))
  · rw [if_neg h1]
    by_cases h2 : (pyStrip value).filter (fun c => pyIsDigit c) = []
    · rw [if_pos h2]
      exact ⟨⟨fun _ => Or.inr (Or.inr (Or.inr h2)), fun _ => rfl⟩,
        fun n hn => absurd hn (by simp)⟩
    · rw [if_neg h2]
      refine ⟨⟨fun habs => absurd habs (by simp), fun hcases => ?_⟩, fun n hn => ?_⟩
      · rcases hcases with h | h | h | h
        · exact absurd (Or.inl h) h1
        · exact absurd (Or.inr (Or.inl h)) h1
        · exact absurd (Or.inr (Or.inr h)) h1
        · exact absurd h h2
      · have := Option.some.inj hn
        exact this.symm

/-- Witness for C4 at the spec's own example `"2,776,000"`. -/
theorem C4_witness :
    (2776000 : Nat) =
      digitsToNat ((pyStrip "2,776,000".data).filter (fun c => pyIsDigit c)) :=
  (C4_parse_vnd_commas_contract "2,776,000".data).2 2776000 (by decide)

theorem processRows_group_header_skip (cell : Cell) (rest : List (List Cell))
    (hc : cell.colspan = some ['4']) :
    processRows ([cell] :: rest) = processRows rest := by
  simp [processRows, hc]

theorem processRows_short_row_skip (tds : List Cell) (rest : List (List Cell))
    (hlen : tds.length < 4) :
    processRows (tds :: rest) = processRows rest := by
  cases tds with
  | nil => rfl
  | cons td0 tds1 =>
    by_cases hskip : tds1 = [] ∧ td0.colspan = some ['4']
    · simp only [processRows, if_pos hskip]
    · simp only [processRows, if_neg hskip, if_pos hlen]

theorem processRows_sound (it : SilverItem) :
    ∀ rows, it ∈ processRows rows →
      it.name ≠ [] ∧ (it.buy ≠ none ∨ it.sell ≠ none) := by
  intro rows
  induction rows using processRows.induct with
  | case1 =>
    intro h
    simp [processRows] at h
  | case2 rest ih =>
    intro h
    exact ih h
  | case3 rest td0 tds1 hskip ih =>
    intro h
    rw [show processRows ((td0 :: tds1) :: rest) = processRows rest by
      simp only [processRows, if_pos hskip]] at h
    exact ih h
  | case4 rest td0 tds1 hskip hlen ih =>
    intro h
    rw [show processRows ((td0 :: tds1) :: rest) = processRows rest by
      simp only [processRows, if_neg hskip, if_pos hlen]] at h
    exact ih h
  | case5 rest td0 tds1 hskip hlen t0 t1 t2 t3 tail heq nm b sl hdiscard ih =>
    intro h
    rw [show processRows ((td0 :: tds1) :: rest) = processRows rest by
      rw [heq]
      have hlen2 : ¬ (t0 :: t1 :: t2 :: t3 :: tail).length < 4 := by
        rw [← heq]
        exact hlen
      have hskip2 : ¬ (t1 :: t2 :: t3 :: tail = [] ∧ t0.colspan = some ['4']) := by
        intro habs
        exact absurd habs.1 (List.cons_ne_nil _ _)
      simp only [processRows, if_neg hskip2, if_neg hlen2, if_pos hdiscard]] at h
    exact ih h
  | case6 rest td0 tds1 hskip hlen t0 t1 t2 t3 tail heq nm b sl hkeep ih =>
    intro h
    rw [show processRows ((td0 :: tds1) :: rest) =
        ⟨normalize_name t0.text, normalize_name t1.text,
          parse_vnd_commas t2.text, parse_vnd_commas t3.text⟩ :: processRows rest by
      rw [heq]
      have hlen2 : ¬ (t0 :: t1 :: t2 :: t3 :: tail).length < 4 := by
        rw [← heq]
        exact hlen
      have hskip2 : ¬ (t1 :: t2 :: t3 :: tail = [] ∧ t0.colspan = some ['4']) := by
        intro habs
        exact absurd habs.1 (List.cons_ne_nil _ _)
      simp only [processRows, if_neg hskip2, if_neg hlen2, if_neg hkeep]] at h
    rcases List.mem_cons.mp h with rfl | h2
    · push_neg at hkeep
      refine ⟨hkeep.1, ?_⟩
      rcases hkeep with ⟨_, h3⟩
      by_cases hb : parse_vnd_commas t2.text = none
      · exact Or.inr (h3 hb)
      · exact Or.inl hb
    · exact ih h2
  | case7 rest td0 tds1 hskip hlen himp ih =>
    exfalso
    cases tds1 with
    | nil => exact hlen (by simp)
    | cons a as =>
      cases as with
      | nil => exact hlen (by simp)
      | cons b bs =>
        cases bs with
        | nil => exact hlen (by simp)
        | cons c cs => exact himp td0 a b c cs rfl

/-- C5: the row loop skips group-header rows (one cell spanning four
columns) and rows with fewer than four cells, and every extracted record has
a non-empty name and at least one present price. -/
theorem C5_row_filtering :
    (∀ rows (it : SilverItem), it ∈ processRows rows →
      it.name ≠ [] ∧ (it.buy ≠ none ∨ it.sell ≠ none)) ∧
    (∀ (cell : Cell) rest, cell.colspan = some ['4'] →
      processRows ([cell] :: rest) = processRows rest) ∧
    (∀ tds rest, tds.length < 4 → processRows (tds :: rest) = processRows rest) :=
  ⟨fun rows it h => processRows_sound it rows h,
   processRows_group_header_skip,
   processRows_short_row_skip⟩

/-- Witness for C5 on a concrete table body. -/
theorem C5_witness :
    ((⟨"a".data, "u".data, some 1, none⟩ : SilverItem).name ≠ [] ∧
      ((⟨"a".data, "u".data, some 1, none⟩ : SilverItem).buy ≠ none ∨
        (⟨"a".data, "u".data, some 1, none⟩ : SilverItem).sell ≠ none)) ∧
    processRows [[⟨some ['4'], "G".data⟩]] = processRows [] ∧
    processRows [[⟨none, "x".data⟩, ⟨none, "y".data⟩]] = processRows [] :=
  ⟨C5_row_filtering.1
      [[⟨none, "a".data⟩, ⟨none, "u".data⟩, ⟨none, "1".data⟩, ⟨none, "-".data⟩]]
      ⟨"a".data, "u".data, some 1, none⟩ (by decide),
   C5_row_filtering.2.1 ⟨some ['4'], "G".data⟩ [] (by decide),
   C5_row_filtering.2.2 [⟨none, "x".data⟩, ⟨none, "y".data⟩] [] (by decide)⟩

/-- C6: when fetching succeeded, extraction fails exactly when the container
is absent, its table is absent, or no qualifying rows remain; otherwise it
returns exactly the non-empty list of extracted records. -/
theorem C6_extraction_error_conditions (p : Page) :
    ((∃ er, get_silver_price (some p) = .error er) ↔
      (p.container = none ∨
        (∃ c, p.container = some c ∧ c.table = none) ∨
        (∃ c t, p.container = some c ∧ c.table = some t ∧ processRows t.rows = []))) ∧
    (∀ items, get_silver_price (some p) = .ok items →
      items ≠ [] ∧
        ∃ c t, p.container = some c ∧ c.table = some t ∧ items = processRows t.rows) := by
  obtain ⟨copt⟩ := p
  cases copt with
  | none =>
    refine ⟨⟨fun _ => Or.inl rfl, fun _ => ⟨ExtractError.noContainer, rfl⟩⟩, ?_⟩
    intro items h
    exact absurd h (by simp [get_silver_price, parse_silver_table])
  | some c =>
    obtain ⟨topt⟩ := c
    cases topt with
    | none =>
      refine ⟨⟨fun _ => Or.inr (Or.inl ⟨⟨none⟩, rfl, rfl⟩),
        fun _ => ⟨ExtractError.noTable, rfl⟩⟩, ?_⟩
      intro items h
      exact absurd h (by simp [get_silver_price, parse_silver_table])
    | some t =>
      by_cases hrows : processRows t.rows = []
      · refine ⟨⟨fun _ => Or.inr (Or.inr ⟨⟨some t⟩, t, rfl, rfl, hrows⟩),
          fun _ => ⟨ExtractError.emptyResult, by simp [get_silver_price,
            parse_silver_table, hrows]⟩⟩, ?_⟩
        intro items h
        exact absurd h (by simp [get_silver_price, parse_silver_table, hrows])
      · have hok : get_silver_price (some ⟨some ⟨some t⟩⟩) = .ok (processRows t.rows) := by
          simp [get_silver_price, parse_silver_table, hrows]
        constructor
        · constructor
          · intro ⟨er, habs⟩
            rw [hok] at habs
            exact absurd habs (by simp)
          · intro hdisj
            exfalso
            rcases hdisj with h1 | ⟨c2, h1, h2⟩ | ⟨c2, t2, h1, h2, h3⟩
            · exact absurd h1 (by simp)
            · have : c2 = ⟨some t⟩ := by
                have := Option.some.inj h1
                exact this.symm
              subst this
              exact absurd h2 (by simp)
            · have hc2 : c2 = ⟨some t⟩ := (Option.some.inj h1).symm
              subst hc2
              have ht2 : t2 = t := (Option.some.inj h2).symm
              subst ht2
              exact hrows h3
        · intro items h
          rw [hok] at h
          have hit : processRows t.rows = items := Except.ok.inj h
          exact ⟨hit ▸ hrows, ⟨some t⟩, t, rfl, rfl, hit.symm⟩

/-- C7: both snapshot-store read paths are total and degrade every
non-success outcome (404, transport failure, missing file entry, missing
content, missing local file) to the empty baseline, returning the stored
text only when it is present. -/
theorem C7_store_read_never_raises :
    (∀ content : Str, load_last_data_from_gist (.ok (some (some content))) = content) ∧
    load_last_data_from_gist .notFound = [] ∧
    load_last_data_from_gist .failure = [] ∧
    load_last_data_from_gist (.ok none) = [] ∧
    load_last_data_from_gist (.ok (some none)) = [] ∧
    load_last_data_from_file none = [] ∧
    (∀ t : Str, load_last_data_from_file (some t) = t) :=
  ⟨fun _ => rfl, rfl, rfl, rfl, rfl, rfl, fun _ => rfl⟩

/-- Witness for C6 on a one-row page. -/
theorem C6_witness :
    ([⟨"a".data, "u".data, some 1, some 2⟩] : List SilverItem) ≠ [] ∧
      ∃ c t,
        (⟨some ⟨some ⟨[[⟨none, "a".data⟩, ⟨none, "u".data⟩, ⟨none, "1".data⟩,
          ⟨none, "2".data⟩]]⟩⟩⟩ : Page).container = some c ∧
        c.table = some t ∧
        [(⟨"a".data, "u".data, some 1, some 2⟩ : SilverItem)] = processRows t.rows :=
  (C6_extraction_error_conditions
    ⟨some ⟨some ⟨[[⟨none, "a".data⟩, ⟨none, "u".data⟩, ⟨none, "1".data⟩,
      ⟨none, "2".data⟩]]⟩⟩⟩).2
    [⟨"a".data, "u".data, some 1, some 2⟩] (by rfl)

theorem load_last_snapshot_eff (e : Env) (rf : Bool) (st : Store) :
    (load_last_snapshot e rf st).2 = Effect.gistRead ∨
    (load_last_snapshot e rf st).2 = Effect.fileRead := by
  unfold load_last_snapshot
  by_cases hc : gistConfigured e = true
  · rw [if_pos hc]
    exact Or.inl rfl
  · rw [if_neg hc]
    exact Or.inr rfl

theorem save_last_snapshot_eff (e : Env) (wf : Bool) (st : Store) (text : Str) :
    (save_last_snapshot e wf st text).2 = [Effect.gistWrite] ∨
    (save_last_snapshot e wf st text).2 = [Effect.gistWrite, Effect.fileWrite] ∨
    (save_last_snapshot e wf st text).2 = [Effect.fileWrite] := by
  unfold save_last_snapshot
  by_cases hc : gistConfigured e = true
  · rw [if_pos hc]
    cases wf with
    | true => exact Or.inr (Or.inl rfl)
    | false => exact Or.inl rfl
  · rw [if_neg hc]
    exact Or.inr (Or.inr rfl)

/-- C1: with credentials present, a run that extracted `items` performs a
store write exactly when the fingerprint of the fresh snapshot differs from
the fingerprint of the normalized previously persisted text AND the send
succeeded; when the fingerprints agree or the send fails the store is left
untouched, and an extraction error leaves the run with only the fetch
attempt. -/
theorem C1_commit_only_after_send (h : Str → Str) (e : Env) (w : World) (st : Store)
    (hbot : bot_token e ≠ []) (hchat : chat_id e ≠ []) :
    (∀ er, get_silver_price w.fetched = .error er →
      main_run h e w st = (st, [Effect.fetch])) ∧
    (∀ items, get_silver_price w.fetched = .ok items →
      ((Effect.gistWrite ∈ (main_run h e w st).2 ∨
          Effect.fileWrite ∈ (main_run h e w st).2) ↔
        (h (canonical_snapshot items) ≠
            h (canonicalize_text_blob (load_last_snapshot e w.gistReadFails st).1) ∧
          w.sendOk = true)) ∧
      ((h (canonical_snapshot items) =
            h (canonicalize_text_blob (load_last_snapshot e w.gistReadFails st).1) ∨
          w.sendOk = false) →
        (main_run h e w st).1 = st)) := by
  have hcond : ¬ (bot_token e = [] ∨ chat_id e = []) := by
    intro habs
    rcases habs with h1 | h1
    · exact hbot h1
    · exact hchat h1
  constructor
  · intro er herr
    unfold main_run
    rw [if_neg hcond, herr]
  · intro items hok
    have hmain : main_run h e w st =
        (if h (canonical_snapshot items) =
            h (canonicalize_text_blob (load_last_snapshot e w.gistReadFails st).1) then
          (st, [Effect.fetch, (load_last_snapshot e w.gistReadFails st).2])
        else if w.sendOk = true then
          ((save_last_snapshot e w.gistWriteFails st (canonical_snapshot items)).1,
            [Effect.fetch, (load_last_snapshot e w.gistReadFails st).2, Effect.send] ++
              (save_last_snapshot e w.gistWriteFails st (canonical_snapshot items)).2)
        else
          (st, [Effect.fetch, (load_last_snapshot e w.gistReadFails st).2, Effect.send])) := by
      unfold main_run
      rw [if_neg hcond, hok]
    by_cases hchanged : h (canonical_snapshot items) =
        h (canonicalize_text_blob (load_last_snapshot e w.gistReadFails st).1)
    · rw [hmain, if_pos hchanged]
      refine ⟨⟨fun hmem => ?_, fun hne => absurd hchanged hne.1⟩, fun _ => rfl⟩
      exfalso
      rcases load_last_snapshot_eff e w.gistReadFails st with hl | hl <;>
        rcases hmem with hm | hm <;> rw [hl] at hm <;> simp at hm
    · rw [hmain, if_neg hchanged]
      cases hsend : w.sendOk with
      | true =>
        rw [if_pos rfl]
        refine ⟨⟨fun _ => ⟨hchanged, rfl⟩, fun _ => ?_⟩, fun hcases => ?_⟩
        · rcases save_last_snapshot_eff e w.gistWriteFails st (canonical_snapshot items)
            with hs | hs | hs <;> rw [hs] <;> simp
        · rcases hcases with h1 | h1
          · exact absurd h1 hchanged
          · exact absurd h1 (by decide)
      | false =>
        rw [if_neg (by decide : ¬ (false = true))]
        refine ⟨⟨fun hmem => ?_, fun hand => ?_⟩, fun _ => rfl⟩
        · exfalso
          rcases load_last_snapshot_eff e w.gistReadFails st with hl | hl <;>
            rcases hmem with hm | hm <;> rw [hl] at hm <;> simp at hm
        · exact absurd hand.2 (by decide)

/-- Witness for C1: a concrete changed-and-sent run against the local
backend performs a store write. -/
theorem C1_witness :
    Effect.fileWrite ∈ (main_run (fun s => s)
      ⟨some "b".data, none, some "c".data, none, none, none, none⟩
      ⟨some ⟨some ⟨some ⟨[[⟨none, "a".data⟩, ⟨none, "u".data⟩, ⟨none, "1".data⟩,
        ⟨none, "2".data⟩]]⟩⟩⟩, false, true, false⟩
      ⟨none, none⟩).2 := by
  have happ := C1_commit_only_after_send (fun s => s)
    ⟨some "b".data, none, some "c".data, none, none, none, none⟩
    ⟨some ⟨some ⟨some ⟨[[⟨none, "a".data⟩, ⟨none, "u".data⟩, ⟨none, "1".data⟩,
      ⟨none, "2".data⟩]]⟩⟩⟩, false, true, false⟩
    ⟨none, none⟩ (by decide) (by decide)
  have h2 := (happ.2 [⟨"a".data, "u".data, some 1, some 2⟩] (by rfl)).1
  have h3 := h2.mpr ⟨by decide, rfl⟩
  rcases h3 with hmem | hmem
  · exact absurd hmem (by decide)
  · exact hmem

/-- C8 (amended): backend selection is consistent between the read and the
attempted write — remote when credential and id are both configured, local
otherwise — and when the remote write does not fail it is the only write;
but a failing remote write falls back to an additional local write. -/
theorem C8_backend_selection (e : Env) (readFails writeFails : Bool)
    (st : Store) (text : Str) :
    (gistConfigured e = true →
      (load_last_snapshot e readFails st).2 = Effect.gistRead ∧
      (save_last_snapshot e writeFails st text).2.head? = some Effect.gistWrite ∧
      (writeFails = false →
        (save_last_snapshot e writeFails st text).2 = [Effect.gistWrite])) ∧
    (gistConfigured e = false →
      (load_last_snapshot e readFails st).2 = Effect.fileRead ∧
      (save_last_snapshot e writeFails st text).2 = [Effect.fileWrite]) := by
  constructor
  · intro hconf
    unfold load_last_snapshot save_last_snapshot
    rw [if_pos hconf, if_pos hconf]
    cases writeFails with
    | true => exact ⟨rfl, rfl, fun habs => absurd habs (by decide)⟩
    | false => exact ⟨rfl, rfl, fun _ => rfl⟩
  · intro hconf
    unfold load_last_snapshot save_last_snapshot
    rw [if_neg (by rw [hconf]; decide), if_neg (by rw [hconf]; decide)]
    exact ⟨rfl, rfl⟩

/-- Witness for C8 on a remote-configured environment whose write succeeds. -/
theorem C8_witness :
    (load_last_snapshot ⟨none, none, none, none, some "t".data, none, some "g".data⟩
        false ⟨none, none⟩).2 = Effect.gistRead ∧
    (save_last_snapshot ⟨none, none, none, none, some "t".data, none, some "g".data⟩
        false ⟨none, none⟩ "s".data).2.head? = some Effect.gistWrite ∧
    (false = false →
      (save_last_snapshot ⟨none, none, none, none, some "t".data, none, some "g".data⟩
        false ⟨none, none⟩ "s".data).2 = [Effect.gistWrite]) :=
  (C8_backend_selection ⟨none, none, none, none, some "t".data, none, some "g".data⟩
    false false ⟨none, none⟩ "s".data).1 (by decide)

/-- Counterexample to C8 as stated: with the remote backend configured and
its write failing, the same run reads from the remote backend but performs a
local-file write — the two backends are mixed. -/
theorem C8_counterexample :
    (load_last_snapshot ⟨none, none, none, none, some "t".data, none, some "g".data⟩
        false ⟨none, none⟩).2 = Effect.gistRead ∧
    Effect.fileWrite ∈
      (save_last_snapshot ⟨none, none, none, none, some "t".data, none, some "g".data⟩
        true ⟨none, none⟩ "s".data).2 := by decide

/-- C9 (amended): the run aborts before any effect — no fetch, no store
access, no send — when the bot credential or the chat identifier is absent;
the store credential and resource identifier do not participate in this
fail-fast check. -/
theorem C9_fail_fast (h : Str → Str) (e : Env) (w : World) (st : Store)
    (hmiss : bot_token e = [] ∨ chat_id e = []) :
    main_run h e w st = (st, []) := by
  unfold main_run
  rw [if_pos hmiss]

/-- Witness for C9 with every variable unset. -/
theorem C9_witness :
    main_run (fun s => s) ⟨none, none, none, none, none, none, none⟩
      ⟨none, false, true, false⟩ ⟨none, none⟩ = (⟨none, none⟩, []) :=
  C9_fail_fast (fun s => s) ⟨none, none, none, none, none, none, none⟩
    ⟨none, false, true, false⟩ ⟨none, none⟩ (by decide)

/-- Counterexample to C9 as stated: with bot credential and chat id present
but the store credential absent, the run still performs its network fetch
instead of failing fast. -/
theorem C9_counterexample :
    get_gist_token ⟨some "b".data, none, some "c".data, none, none, none, none⟩ = none ∧
    Effect.fetch ∈ (main_run (fun s => s)
      ⟨some "b".data, none, some "c".data, none, none, none, none⟩
      ⟨none, false, true, false⟩ ⟨none, none⟩).2 := by decide

/-- C2 (amended): `canonical_snapshot` is invariant under permutations
combined with whitespace noise in names and units, provided the
`(normalized name, normalized unit)` sort keys are pairwise distinct (with a
duplicated key, Python's stable sort keeps the two tied rows in input
order, so a permutation can change the snapshot — see the
counterexample). -/
theorem C2_snapshot_invariance (l1 l2 l' : List SilverItem)
    (hperm : l1.Perm l') (hnoise : List.Forall₂ itemNoiseEq l' l2)
    (hkeys : (l1.map itemKey).Nodup) :
    canonical_snapshot l1 = canonical_snapshot l2 :=
  canonical_snapshot_perm_nodup l1 l2 l' hperm hnoise hkeys

/-- Witness for C2: a swap plus non-breaking-space/padding noise leaves the
snapshot unchanged. -/
theorem C2_witness :
    canonical_snapshot
      [⟨"Bạc miếng".data, "chỉ".data, some 1, none⟩,
       ⟨"x".data, "u".data, none, some 2⟩] =
    canonical_snapshot
      [⟨" x ".data, "u".data, none, some 2⟩,
       ⟨"Bạc miếng".data, "  chỉ".data, some 1, none⟩] :=
  C2_snapshot_invariance _ _
    [⟨"x".data, "u".data, none, some 2⟩, ⟨"Bạc miếng".data, "chỉ".data, some 1, none⟩]
    (List.Perm.swap _ _ _)
    (List.Forall₂.cons ⟨by decide, by decide, rfl, rfl⟩
      (List.Forall₂.cons ⟨by decide, by decide, rfl, rfl⟩ List.Forall₂.nil))
    (by decide)

/-- Counterexample to C2 as stated: two records with the same
`(name, unit)` key but different prices; swapping them permutes the
multiset yet changes the snapshot, because the sort key ignores prices and
the sort is stable. -/
theorem C2_counterexample :
    ([⟨"x".data, "u".data, some 1, none⟩,
      ⟨"x".data, "u".data, some 2, none⟩] : List SilverItem).Perm
      [⟨"x".data, "u".data, some 2, none⟩, ⟨"x".data, "u".data, some 1, none⟩] ∧
    canonical_snapshot
        [⟨"x".data, "u".data, some 1, none⟩, ⟨"x".data, "u".data, some 2, none⟩] ≠
      canonical_snapshot
        [⟨"x".data, "u".data, some 2, none⟩, ⟨"x".data, "u".data, some 1, none⟩] :=
  ⟨List.Perm.swap _ _ _, by decide⟩

/-- C3 (amended): `canonicalize_text_blob` is idempotent on every string
not containing the three-character sequence CR CR LF (on such a string the
first CRLF replacement manufactures a fresh CRLF, which only the second
application removes — see the counterexample), and it is the identity on
every freshly computed canonical snapshot. -/
theorem C3_blob_normalization (s : Str) (items : List SilverItem)
    (hs : hasTriple '\r' '\r' '\n' s = false) :
    canonicalize_text_blob (canonicalize_text_blob s) = canonicalize_text_blob s ∧
    canonicalize_text_blob (canonical_snapshot items) = canonical_snapshot items :=
  ⟨canonicalize_text_blob_idem_of_no_rrn s hs,
   canonicalize_text_blob_fixes_snapshot items⟩

/-- Witness for C3 on a CRLF-bearing stored blob and a concrete snapshot. -/
theorem C3_witness :
    canonicalize_text_blob (canonicalize_text_blob " a\r\nb ".data) =
      canonicalize_text_blob " a\r\nb ".data ∧
    canonicalize_text_blob
        (canonical_snapshot [⟨"a".data, "u".data, some 1, some 2⟩]) =
      canonical_snapshot [⟨"a".data, "u".data, some 1, some 2⟩] :=
  C3_blob_normalization " a\r\nb ".data [⟨"a".data, "u".data, some 1, some 2⟩] (by decide)

/-- Counterexample to C3 as stated: on `"a\r\r\nb"` the normalization is
not idempotent — the first pass yields `"a\r\nb"`, the second `"a\nb"`. -/
theorem C3_counterexample :
    canonicalize_text_blob (canonicalize_text_blob "a\r\r\nb".data) ≠
      canonicalize_text_blob "a\r\r\nb".data := by decide

/-- C10: the table portion of the message — exactly the text placed between
the `<pre><code>` and `</code></pre>` tags — is the `html.escape` image of
the raw table, in which `<` and `>` never occur and `&` occurs only at the
head of a complete escape entity. -/
theorem C10_message_table_escaped (now : Str) (items : List SilverItem) :
    build_message now items =
      msgHeader now ++ ("<pre><code>".data ++ (htmlEscape (tableText items) ++
        ("</code></pre>".data ++ "\nNguồn: giabac.phuquygroup.vn".data))) ∧
    EscapedText (htmlEscape (tableText items)) ∧
    '<' ∉ htmlEscape (tableText items) ∧
    '>' ∉ htmlEscape (tableText items) :=
  ⟨rfl, escapedText_htmlEscape _,
   (escapedText_no_raw_angles (escapedText_htmlEscape _)).1,
   (escapedText_no_raw_angles (escapedText_htmlEscape _)).2⟩
